import Mathlib

/-!
Shallow embedding of the msufsort suffix-array library
(src/src/library/msufsort/msufsort.cpp together with the constants declared
in src/src/library/msufsort/msufsort.h), restricted to the single-threaded
execution paths (numThreads = 1, i.e. numWorkerThreads_ = 0; the
post_task_to_thread calls then run inline on the calling thread and the
wait_for_all_tasks_completed barriers are no-ops).

Modelling conventions, used consistently below:
* the input byte string T[0..N) is a `List Nat` of values < 256; reads through
  a position that is out of range (the zero-padded tail-copy buffer copyEnd_,
  reads past inputEnd_, and the undefined reads the C++ performs on degenerate
  inputs) yield 0;
* the suffix array is a total function `Nat → Nat`; the stored 32-bit values
  (suffix index in the low 31 bits, preceding-suffix-is-type-A flag in the
  top bit) are Nats below 2^32, manipulated with `&&&`, `|||` exactly like the
  int32 bit operations of the source;
* the count / bucket-offset arrays are total functions `Nat → Nat`;
* loops whose termination relies on properties of the data carry an explicit
  fuel argument; every concrete evaluation below is performed with ample fuel.
-/

set_option maxRecDepth 100000

namespace Msufsort

/-- Ascending counted loop, auxiliary: k applications of the body starting
at index i. -/
def loopUpAux (f : Nat → α → α) : Nat → Nat → α → α
  | 0, _, a => a
  | k + 1, i, a => loopUpAux f k (i + 1) (f i a)

/-- Ascending counted loop: applies the body at indices 0, 1, ..., n-1. -/
def loopUp (n : Nat) (f : Nat → α → α) (a : α) : α := loopUpAux f n 0 a

/-- Descending counted loop: applies the body at indices n-1, n-2, ..., 0. -/
def loopDown : Nat → (Nat → α → α) → α → α
  | 0, _, a => a
  | n + 1, f, a => loopDown n f (f n a)

/-- An integer array, modelled as a total function wrapped in a structure
(the wrapper keeps the update helpers below at first-order result type, so a
no-op update can return the array unchanged). -/
structure Arr where
  get : Nat → Nat

/-- Point update of an array: models `f[k] = v`. -/
def setF (f : Arr) (k v : Nat) : Arr :=
  ⟨fun x => if x = k then v else f.get x⟩

/-- Addition into a counter array: models `f[k] += v`.  A zero increment
returns the array unchanged, which is extensionally identical to the
unconditional update and keeps the update chains short. -/
def bump (f : Arr) (k v : Nat) : Arr :=
  if v = 0 then f else ⟨fun x => if x = k then f.get x + v else f.get x⟩

/-- Increment of a counter array: models `++f[k]`. -/
def incF (f : Arr) (k : Nat) : Arr :=
  ⟨fun x => if x = k then f.get x + 1 else f.get x⟩

/-- The everywhere-zero array. -/
def zeroF : Arr := ⟨fun _ => 0⟩

/-- Swap of two slots of an array: models `std::swap(f[i], f[j])`. -/
def swapF (f : Arr) (i j : Nat) : Arr :=
  ⟨fun k => if k = i then f.get j else if k = j then f.get i else f.get k⟩

/-- The contents of the half-open slot range [b, e) of an array, as a
list. -/
def readRange (f : Arr) (b e : Nat) : List Nat :=
  (List.range (e - b)).map (fun k => f.get (b + k))

/-- Overwrite of the slot range [b, b + l.length) of an array with the
contents of the list l. -/
def writeRange (f : Arr) (b : Nat) (l : List Nat) : Arr :=
  ⟨fun k => if b ≤ k ∧ k < b + l.length then l.getD (k - b) 0 else f.get k⟩

/-- Byte of the input string at a (possibly out-of-range) position.
Out-of-range reads give 0: positions at or past inputEnd_ are served by the
pre-zeroed copyEnd_ tail buffer in the source (get_value) or are undefined
reads on degenerate inputs, modelled as 0 here. -/
def byteAt (t : List Nat) (i : Int) : Nat :=
  if 0 ≤ i then t.getD i.toNat 0 else 0

/-! Constants from msufsort.h. -/

/-- Mask extracting the suffix index from an SA entry (msufsort.h). -/
def sa_index_mask : Nat := 0x7FFFFFFF

/-- Flag marking that the preceding suffix is of type A (msufsort.h). -/
def preceding_suffix_is_type_a_flag : Nat := 0x80000000

/-- SA slot value marking a B suffix whose sorted position has not been
induced yet (msufsort.cpp usage; bit pattern 0x80000000). -/
def suffix_is_unsorted_b_type : Nat := 0x80000000

/-- ISA flag marking a slot that stores a tandem repeat length
(is_tandem_repeat_flag in msufsort.h, is_tandem_repeat_length in the cpp). -/
def is_tandem_repeat_length : Nat := 0x80000000

/-- Mask extracting the index part of an ISA entry: the complement of the
two ISA flag bits 0x80000000 and 0x40000000 (msufsort.h). -/
def isa_index_mask : Nat := 0x3FFFFFFF

/-- Partitions smaller than this are sorted by multikey_insertion_sort
(msufsort.h). -/
def insertion_sort_threshold : Nat := 16

/-- Minimum common match length before the tandem repeat check is attempted:
2 + sizeof(uint64_t) + sizeof(uint64_t) (msufsort.h, line 59). -/
def min_length_before_tandem_repeat_check : Nat := 2 + 8 + 8

/-- Name used by msufsort.cpp for the tandem repeat threshold; the constant
is declared in msufsort.h as min_length_before_tandem_repeat_check. -/
def min_match_length_for_tandem_repeats : Nat := min_length_before_tandem_repeat_check

/-- Size in bytes of the comparison window type suffix_value: the header
declares get_value with result type uint64_t, so the window is 8 bytes. -/
def suffix_value_size : Nat := 8

/-- Big-endian 8-byte window of the input starting at a given position, with
missing bytes reading as 0.  This models
endian_swap<host_order_type, big_endian_type> applied to an 8-byte load,
where loads overlapping inputEnd_ are served from the zero-padded copyEnd_
buffer (get_value, msufsort.cpp lines 129-143). -/
def windowAt (t : List Nat) (p : Int) : Nat :=
  byteAt t p <<< 56 ||| byteAt t (p + 1) <<< 48 ||| byteAt t (p + 2) <<< 40 |||
  byteAt t (p + 3) <<< 32 ||| byteAt t (p + 4) <<< 24 ||| byteAt t (p + 5) <<< 16 |||
  byteAt t (p + 6) <<< 8 ||| byteAt t (p + 7)

/-- The get_value window read of msufsort.cpp: the window at
base + (index & sa_index_mask). -/
def get_value (t : List Nat) (base : Int) (index : Nat) : Nat :=
  windowAt t (base + (index &&& sa_index_mask : Nat))

/-- Block-skipping loop of compare_suffixes: advances both cursors by 8 while
the 8-byte windows agree and the b cursor is at most getValueEnd_
(= inputEnd_ - 8); on exit compares the windows, with a suffix that has run
past inputEnd_ comparing as the smaller (return true = value at pa ≥ value
at pb).  Fuel-guarded; ample fuel makes the guard unreachable. -/
def compare_suffixes_loop (t : List Nat) : Nat → Int → Int → Bool
  | 0, _, _ => true
  | fuel + 1, pa, pb =>
    if pb ≤ (t.length : Int) - 8 ∧ windowAt t pb = windowAt t pa then
      compare_suffixes_loop t fuel (pa + 8) (pb + 8)
    else if (t.length : Int) ≤ pb then true
    else decide (windowAt t pb ≤ windowAt t pa)

/-- The two-argument compare_suffixes of msufsort.cpp: true iff the suffix at
index ia sorts at or after the suffix at index ib, both read from offset
`base`.  Indices are masked with sa_index_mask first; the larger index is
compared through the negated recursive call exactly as in the source. -/
def compare_suffixes (t : List Nat) (base : Int) (ia ib : Nat) : Bool :=
  let a := ia &&& sa_index_mask
  let b := ib &&& sa_index_mask
  if a > b then !(compare_suffixes_loop t (t.length + 16) (base + b) (base + a))
  else compare_suffixes_loop t (t.length + 16) (base + a) (base + b)

/-- Suffix classification of msufsort. -/
inductive suffix_type where
  | a
  | b
  | bStar
deriving DecidableEq

/-- Scan forward from position p while the byte equals c, stopping at the
first differing byte or at position bound n; the counter k counts the
remaining positions below n, so the recursion is structural. -/
def scanRun (t : List Nat) (c : Nat) : Nat → Nat → Nat
  | 0, p => p
  | k + 1, p => if byteAt t p = c then scanRun t c k (p + 1) else p

/-- The get_suffix_type classifier of msufsort.cpp (lines 103-125). -/
def get_suffix_type (t : List Nat) (i : Nat) : suffix_type :=
  let n := t.length
  if n ≤ i + 1 then .a
  else if byteAt t i ≥ byteAt t (i + 1) then
    let p := scanRun t (byteAt t i) (n - (i + 1)) (i + 1)
    if p = n ∨ byteAt t i > byteAt t p then .a else .b
  else
    let p := scanRun t (byteAt t (i + 1)) (n - (i + 2)) (i + 2)
    if p = n ∨ byteAt t (i + 1) > byteAt t p then .bStar else .b

/-- Initial two-bit classifier state used by count_suffixes and
initial_two_byte_radix_sort: a ↦ 1, b ↦ 0, bStar ↦ 2. -/
def suffix_type_state : suffix_type → Nat
  | .a => 1
  | .b => 0
  | .bStar => 2

/-- The per-thread counter triple of count_suffixes: counts of type B, type A
and type B* suffixes keyed by the big-endian 16-bit head T[i]T[i+1]. -/
structure CountState where
  bC : Arr
  aC : Arr
  bStarC : Arr

/-- Dispatch of `++count[state & 0x03][key]`: the count array tuple passed by
first_stage_its is {threadBCount, threadACount, bStarCount, threadACount}. -/
def count_inc (cs : CountState) (sel key : Nat) : CountState :=
  match sel with
  | 0 => { cs with bC := incF cs.bC key }
  | 1 => { cs with aC := incF cs.aC key }
  | 2 => { cs with bStarC := incF cs.bStarC key }
  | _ => { cs with aC := incF cs.aC key }

/-- State transition of the two-bit suffix classifier run right-to-left:
`state <<= ((cur[0] != cur[1]) | ((state & 1) == 0)); state |= (cur[0] > cur[1])`
followed by the uint32 truncation the C++ arithmetic performs implicitly. -/
def classifier_step (t : List Nat) (cur state : Nat) : Nat :=
  let c0 := byteAt t ((cur : Int) - 1)
  let c1 := byteAt t cur
  let sh := if c0 ≠ c1 ∨ state &&& 1 = 0 then 1 else 0
  ((state <<< sh) ||| (if c0 > c1 then 1 else 0)) &&& 0xFFFFFFFF

/-- Counting loop of count_suffixes: positions cur, cur-1, ..., with the
given number of steps; the 16-bit key is the big-endian word T[cur]T[cur+1]. -/
def count_suffixes_loop (t : List Nat) : Nat → Nat → Nat → CountState → CountState
  | 0, _, _, cs => cs
  | steps + 1, cur, state, cs =>
    let key := byteAt t cur * 256 + byteAt t (cur + 1)
    let cs' := count_inc cs (state &&& 3) key
    match steps with
    | 0 => cs'
    | steps' + 1 =>
      count_suffixes_loop t (steps' + 1) (cur - 1) (classifier_step t cur state) cs'

/-- The count_suffixes pass of msufsort.cpp (lines 1473-1498), walking the
input right-to-left from position `b` down to position `e`; returns
immediately when b < e (the inverted guard of the source). -/
def count_suffixes (t : List Nat) (b e : Int) (cs : CountState) : CountState :=
  if b < e then cs
  else
    count_suffixes_loop t ((b - e).toNat + 1) b.toNat
      (suffix_type_state (get_suffix_type t b.toNat)) cs

/-- Scatter loop of initial_two_byte_radix_sort: same walk as
count_suffixes_loop, writing each B* position (with the
preceding-suffix-is-type-A flag) at its bStarOffset cursor. -/
def radix_sort_loop (t : List Nat) :
    Nat → Nat → Nat → Arr → Arr → Arr × Arr
  | 0, _, _, sa, offs => (sa, offs)
  | steps + 1, cur, state, sa, offs =>
    let p :=
      if state &&& 3 = 2 then
        let flag :=
          if 0 < cur ∧ byteAt t ((cur : Int) - 1) ≤ byteAt t cur then 0
          else preceding_suffix_is_type_a_flag
        let key := byteAt t cur * 256 + byteAt t (cur + 1)
        (setF sa (offs.get key) (cur ||| flag), setF offs key (offs.get key + 1))
      else (sa, offs)
    match steps with
    | 0 => p
    | steps' + 1 =>
      radix_sort_loop t (steps' + 1) (cur - 1) (classifier_step t cur state) p.1 p.2

/-- The initial_two_byte_radix_sort pass of msufsort.cpp (lines 1502-1532). -/
def initial_two_byte_radix_sort (t : List Nat) (b e : Int)
    (sa offs : Arr) : Arr × Arr :=
  if b < e then (sa, offs)
  else
    radix_sort_loop t ((b - e).toNat + 1) b.toNat
      (suffix_type_state (get_suffix_type t b.toNat)) sa offs

/-- Accumulated bucket layout state of the offset-computation loop in
first_stage_its (msufsort.cpp lines 1580-1607), single-threaded instance.
`total` and the cursor arrays store SA slot indices (the source stores
pointers suffixArrayBegin_ + total). -/
structure OffsetState where
  total : Nat
  bStarTotal : Nat
  totalBStarCount : Arr
  bStarOffset : Arr
  bCount : Arr
  front : Arr
  back : Arr
  partitions : List (Nat × Nat × Nat)

/-- Inner loop (over the second byte j) of the offset computation for a fixed
leading byte i, single thread: bStarOffset[s] = bStarTotal;
totalBStarCount[s] += bStarCount[s]; bStarTotal += bStarCount[s];
bCount[s] += bStarCount[s]; total += bCount[s] + aCount[s];
backBucketOffset_[(j << 8) | i] = total; a partition (start, size, s) is
recorded when totalBStarCount[s] > 0. -/
def first_stage_offsets_inner (aCount bStarCount : Arr) (i : Nat)
    (st : OffsetState) : OffsetState :=
  loopUp 256 (fun j st =>
    let s := (i <<< 8) ||| j
    let partitionStartIndex := st.bStarTotal
    let st := { st with
      bStarOffset := setF st.bStarOffset s st.bStarTotal
      totalBStarCount := bump st.totalBStarCount s (bStarCount.get s)
      bStarTotal := st.bStarTotal + bStarCount.get s
      bCount := bump st.bCount s (bStarCount.get s) }
    let st := { st with total := st.total + (st.bCount.get s + aCount.get s) }
    let st := { st with back := setF st.back ((j <<< 8) ||| i) st.total }
    if 0 < st.totalBStarCount.get s then
      { st with partitions := st.partitions ++ [(partitionStartIndex, st.totalBStarCount.get s, s)] }
    else st) st

/-- Offset computation of first_stage_its: for every leading byte i,
frontBucketOffset_[i] is set to the running total before bucket i is
processed, then the inner loop adds bucket (i, j) for every second byte j.
total starts at 1 (the sentinel slot SA[0]). -/
def first_stage_offsets (aCount bStarCount bCount0 : Arr) : OffsetState :=
  loopUp 256 (fun i st =>
    first_stage_offsets_inner aCount bStarCount i { st with front := setF st.front i st.total })
    { total := 1, bStarTotal := 0, totalBStarCount := zeroF, bStarOffset := zeroF,
      bCount := bCount0, front := zeroF, back := zeroF, partitions := [] }

/-- Little-endian byte j of a 64-bit value stored in memory. -/
def leByte (v j : Nat) : Nat := (v >>> (8 * j)) &&& 0xFF

/-- Byte idx of the 16-byte buffer holding the two suffix_value entries of an
endingPattern array, as laid out in memory on a little-endian host. -/
def ending_pattern_byte (ep0 ep1 : Nat) (idx : Nat) : Nat :=
  if idx < 8 then leByte ep0 idx else leByte ep1 (idx - 8)

/-- The 8-byte little-endian load at byte offset k of the endingPattern
buffer, as performed by has_potential_tandem_repeats. -/
def ending_pattern_read (ep0 ep1 k : Nat) : Nat :=
  loopUp 8 (fun j acc => acc ||| (ending_pattern_byte ep0 ep1 (k + j) <<< (8 * j))) 0

/-- The has_potential_tandem_repeats test of msufsort.cpp (lines 316-330):
scans the 8 byte-shifted 64-bit loads of the endingPattern buffer for an
occurrence of startingPattern (tandemRepeatSortEnabled_ is the constant
true). -/
def has_potential_tandem_repeats (startingPattern : Nat) (ep0 ep1 : Nat) : Bool :=
  (List.range 8).any (fun k => ending_pattern_read ep0 ep1 k = startingPattern)

/-- Record pushed on the tandem repeat stack: partition begin and end slot
indices, number of terminators and tandem repeat length
(tandem_repeat_info of msufsort.cpp). -/
structure tandem_repeat_info where
  partitionBegin : Nat
  partitionEnd : Nat
  numTerminators : Nat
  tandemRepeatLength : Nat

/-- The ordering by masked suffix index used by the std::sort call of
partition_tandem_repeats. -/
def tr_le (a b : Nat) : Prop := a &&& sa_index_mask ≤ b &&& sa_index_mask

instance : DecidableRel tr_le := fun a b => Nat.decLe _ _

/-- Tandem-repeat-length detection loop of partition_tandem_repeats: walks
the index-sorted partition left to right and returns the gap of the first
consecutive pair whose (nonzero) gap is at most half the match length, or 0
if there is none.  The source keeps scanning while tandemRepeatLength is
still 0, which skips zero gaps exactly as modelled here. -/
def tr_find (half : Nat) : Nat → List Nat → Nat
  | _, [] => 0
  | prev, c :: rest =>
    let cur := c &&& sa_index_mask
    if prev + half ≥ cur then
      if cur - prev = 0 then tr_find half cur rest else cur - prev
    else tr_find half cur rest

/-- Swap of two entries of a list. -/
def listSwap (l : List Nat) (i j : Nat) : List Nat :=
  (l.set i (l.getD j 0)).set j (l.getD i 0)

/-- Right-to-left separation walk of partition_tandem_repeats: position cur
runs from size-2 down to 0; an entry whose original successor (in index
order) is exactly tandemRepeatLength larger is a repeat and is swapped to
the shrinking tail position tEnd.  prevIdx carries the masked value the
previous iteration read at position cur+1 (before any swap there).
Returns the walked list together with the final terminatorsEnd position. -/
def tr_walk_loop (period : Nat) : Nat → Nat → Nat → Nat → List Nat → List Nat × Nat
  | 0, _, tEnd, _, l => (l, tEnd)
  | steps + 1, cur, tEnd, prevIdx, l =>
    let curIdx := l.getD cur 0 &&& sa_index_mask
    let p :=
      if prevIdx - curIdx = period then (listSwap l tEnd cur, tEnd - 1)
      else (l, tEnd)
    tr_walk_loop period steps (cur - 1) p.2 curIdx p.1

/-- The separation walk over a whole partition list (msufsort.cpp lines
364-372). -/
def tr_walk (l : List Nat) (period : Nat) : List Nat × Nat :=
  tr_walk_loop period (l.length - 1) (l.length - 2) (l.length - 1)
    (l.getD (l.length - 1) 0 &&& sa_index_mask) l

/-- List-level partition_tandem_repeats (msufsort.cpp lines 334-377): sorts
the partition by masked suffix index ascending (std::sort is modelled by
insertionSort; the masked keys of a real partition are pairwise distinct, so
any comparison sort produces this result), detects the tandem repeat length,
swaps repeats to the tail, reverses, and returns the new contents, the
number of repeat suffixes (the return value handed to the caller) and the
(numTerminators, tandemRepeatLength) data of the stack record, if one is
pushed. -/
def partition_tandem_repeats_list (l : List Nat) (currentMatchLength : Nat) :
    List Nat × Nat × Option (Nat × Nat) :=
  let sorted := List.insertionSort tr_le l
  let half := currentMatchLength >>> 1
  let trLen := tr_find half (sorted.headD 0 &&& sa_index_mask) sorted.tail
  if trLen = 0 then (sorted, 0, none)
  else
    let w := tr_walk sorted trLen
    let numTerminators := w.2 + 1
    (w.1.reverse, l.length - numTerminators, some (numTerminators, trLen))

/-- The partition_tandem_repeats call on the suffix array: operates in place
on the slot range [b, e); returns the number of repeat suffixes, the updated
array and the updated tandem repeat stack. -/
def partition_tandem_repeats (sa : Arr) (b e currentMatchLength : Nat)
    (tr : List tandem_repeat_info) :
    Nat × Arr × List tandem_repeat_info :=
  let r := partition_tandem_repeats_list (readRange sa b e) currentMatchLength
  (r.2.1, writeRange sa b r.1,
    match r.2.2 with
    | some d => ⟨b, e, d.1, d.2⟩ :: tr
    | none => tr)

/-- Stack entry of multikey_insertion_sort (the local partition_info struct,
msufsort.cpp lines 238-245). -/
structure PartitionInfo where
  currentMatchLength : Nat
  size : Nat
  startingPattern : Nat
  endingPattern : Nat
  hasPotentialTandemRepeats : Bool

/-- Inner shift loop of the insertion sort: with j+1 elements placed before
the insertion point, moves entries one slot right while the key to the left
is larger; returns the updated array, key array and final insertion index. -/
def mis_shift (sa vals : Arr) (pb : Nat) :
    Nat → Nat → Arr × Arr × Nat
  | 0, _ => (sa, vals, 0)
  | j + 1, cv =>
    if vals.get j > cv then
      mis_shift (setF sa (pb + j + 1) (sa.get (pb + j))) (setF vals (j + 1) (vals.get j)) pb j cv
    else (sa, vals, j + 1)

/-- In-place insertion sort of the size-element partition starting at slot
pb, keyed by the 8-byte window at offset currentMatchLength
(msufsort.cpp lines 278-293); also returns the sorted key array. -/
def mis_insert (t : List Nat) (currentMatchLength : Nat) (sa : Arr)
    (pb size : Nat) : Arr × Arr :=
  loopUp (size - 1) (fun k p =>
    let i := k + 1
    let currentIndex := p.1.get (pb + i)
    let currentValue := get_value t currentMatchLength (p.1.get (pb + i))
    let s := mis_shift p.1 p.2 pb i currentValue
    (setF s.1 (pb + s.2.2) currentIndex, setF s.2.1 s.2.2 currentValue))
    (sa, setF zeroF 0 (get_value t currentMatchLength (sa.get pb)))

/-- Scan down through the key array from index j while the key equals sv:
returns the lowered remaining count (final i + 1 of the source). -/
def mis_run_end (vals : Arr) (sv : Nat) : Nat → Nat
  | 0 => 0
  | j + 1 => if vals.get j = sv then mis_run_end vals sv j else j + 1

/-- Equal-key run splitting loop of multikey_insertion_sort (lines 295-308):
walks the sorted keys from the top down, and for each maximal equal-key run
pushes a new stack entry with the match length advanced by 8; the starting
pattern is (re)captured from the partition head when the next match length
is 2 + sizeof(suffix_value); the potential-tandem-repeats test uses the
pattern value before that capture.  rem is the number of As-yet-unsplit
elements; fuel makes the recursion structural. -/
def mis_split (t : List Nat) (sa vals : Arr) (pb nextMatchLength : Nat) :
    Nat → Nat → Nat → Nat → List PartitionInfo → List PartitionInfo
  | 0, _, _, _, acc => acc
  | _ + 1, 0, _, _, acc => acc
  | fuel + 1, i + 1, sp, ep0, acc =>
    let start := i
    let sv := vals.get start
    let rem := mis_run_end vals sv start
    let partitionSize := start + 1 - rem
    let potential := has_potential_tandem_repeats sp ep0 sv
    let sp' := if nextMatchLength = 2 + suffix_value_size then get_value t 0 (sa.get pb) else sp
    mis_split t sa vals pb nextMatchLength fuel rem sp' ep0
      (⟨nextMatchLength, partitionSize, sp', sv, potential⟩ :: acc)

/-- The tandem repeat gate at the head of a multikey_insertion_sort stack
entry (msufsort.cpp lines 266-276): attempted only when the entry's match
length has reached min_match_length_for_tandem_repeats and the entry carries
the potential-tandem-repeats flag; extracted repeats shrink the entry.
Returns (array, partition begin, size, tandem repeat stack). -/
def mis_tandem_gate (sa : Arr) (pb size matchLen : Nat) (potential : Bool)
    (tr : List tandem_repeat_info) : Arr × Nat × Nat × List tandem_repeat_info :=
  if min_match_length_for_tandem_repeats ≤ matchLen ∧ potential then
    let r := partition_tandem_repeats sa pb (pb + size) matchLen tr
    (r.2.1, pb + r.1, size - r.1, r.2.2)
  else (sa, pb, size, tr)

/-- Main loop of multikey_insertion_sort (msufsort.cpp lines 223-312),
processing the explicit partition stack; the list head is the stack top.
partitionBegin advances as entries complete.  endingPattern[1] of the
caller is kept in ep1 and never changes inside the loop, matching the
source, where only endingPattern[0] is reloaded from the stack. -/
def mis_loop (t : List Nat) :
    Nat → Arr → Nat → Nat → List PartitionInfo →
    List tandem_repeat_info → Arr × List tandem_repeat_info
  | 0, sa, _, _, _, tr => (sa, tr)
  | _ + 1, sa, _, _, [], tr => (sa, tr)
  | fuel + 1, sa, pb, ep1, top :: rest, tr =>
    if top.size ≤ 2 then
      let sa' :=
        if top.size = 2 ∧
            compare_suffixes t top.currentMatchLength (sa.get pb) (sa.get (pb + 1)) then
          swapF sa pb (pb + 1)
        else sa
      mis_loop t fuel sa' (pb + top.size) ep1 rest tr
    else
      let g := mis_tandem_gate sa pb top.size top.currentMatchLength
        top.hasPotentialTandemRepeats tr
      if g.2.2.1 = 0 then mis_loop t fuel g.1 g.2.1 ep1 rest g.2.2.2
      else
        let pb1 := g.2.1
        let size1 := g.2.2.1
        let m := mis_insert t top.currentMatchLength g.1 pb1 size1
        let stack' := mis_split t m.1 m.2 pb1 (top.currentMatchLength + suffix_value_size)
          (size1 + 1) size1 top.startingPattern top.endingPattern rest
        mis_loop t fuel m.1 pb1 ep1 stack' g.2.2.2

/-- The multikey_insertion_sort entry point: partitions of fewer than two
elements return immediately; otherwise the stack is seeded with one entry. -/
def multikey_insertion_sort (t : List Nat) (fuel : Nat) (sa : Arr)
    (pb pe currentMatchLength startingPattern ep0 ep1 : Nat)
    (tr : List tandem_repeat_info) : Arr × List tandem_repeat_info :=
  if pe - pb < 2 then (sa, tr)
  else mis_loop t fuel sa pb ep1
    [⟨currentMatchLength, pe - pb, startingPattern, ep0, false⟩] tr

/-- Conditional exchange of the five-element sorting network used for pivot
selection: swaps the two SA slots and the two cached key values when the
left key is larger. -/
def pivot_step (sa : Arr) (pi pj vi vj : Nat) : Arr × Nat × Nat :=
  if vi > vj then (swapF sa pi pj, vj, vi) else (sa, vi, vj)

/-- State of the seven-way partitioning sweep of multikey_quicksort
(msufsort.cpp lines 554-610): the suffix array, the region pointers (as slot
indices) and the three cached window values currentValue, nextValue and
nextDValue. -/
structure MqsPartState where
  sa : Arr
  cur : Nat
  bp1 : Nat
  ep1 : Nat
  bp2 : Nat
  ep2 : Nat
  bp3 : Nat
  ep3 : Nat
  cv : Nat
  nv : Nat
  ndv : Nat

/-- One left/right sweep of the seven-way partition: gap is the number of
slots still between curSuffix and endPivot2 inclusive, which decreases by
one on either branch. -/
def mqs_partition_loop (t : List Nat) (off : Int) (p1 p2 p3 : Nat) :
    Nat → MqsPartState → MqsPartState
  | 0, st => st
  | gap + 1, st =>
    if st.cv ≤ p2 then
      let temp := st.nv
      let nv' := get_value t off (st.sa.get (st.cur + 2))
      let st' :=
        if st.cv < p2 then
          let sa1 := swapF st.sa st.bp2 st.cur
          let s2 :=
            if st.cv ≤ p1 then
              if st.cv < p1 then
                (swapF (swapF sa1 st.bp1 st.bp2) st.ep1 st.bp2, st.bp1 + 1, st.ep1 + 1)
              else (swapF sa1 st.ep1 st.bp2, st.bp1, st.ep1 + 1)
            else (sa1, st.bp1, st.ep1)
          { st with sa := s2.1, bp1 := s2.2.1, ep1 := s2.2.2, bp2 := st.bp2 + 1 }
        else st
      mqs_partition_loop t off p1 p2 p3 gap
        { st' with cur := st'.cur + 1, cv := temp, nv := nv' }
    else
      let nv2 := get_value t off (st.sa.get (st.ep2 - 1))
      let sa1 := swapF st.sa st.ep2 st.cur
      let s2 :=
        if st.cv ≥ p3 then
          if st.cv > p3 then
            (swapF (swapF sa1 st.ep2 st.ep3) st.ep2 st.bp3, st.bp3 - 1, st.ep3 - 1)
          else (swapF sa1 st.ep2 st.bp3, st.bp3 - 1, st.ep3)
        else (sa1, st.bp3, st.ep3)
      mqs_partition_loop t off p1 p2 p3 gap
        { st with
            sa := s2.1
            bp3 := s2.2.1
            ep3 := s2.2.2
            ep2 := st.ep2 - 1
            cv := st.ndv
            ndv := nv2 }

/-- The tandem repeat gate at the head of multikey_quicksort (msufsort.cpp
lines 504-511): attempted only when the partition's common match length has
reached min_match_length_for_tandem_repeats; the starting pattern is
captured when the match length equals the threshold exactly, and the
partition front is advanced past the repeats extracted by
partition_tandem_repeats.  Returns the (array, partition begin, starting
pattern, tandem repeat stack) quadruple. -/
def mqs_tandem_gate (t : List Nat) (sa : Arr) (b e matchLen sp ep0 ep1 : Nat)
    (tr : List tandem_repeat_info) : Arr × Nat × Nat × List tandem_repeat_info :=
  if min_match_length_for_tandem_repeats ≤ matchLen then
    let sp1 :=
      if matchLen = min_match_length_for_tandem_repeats then get_value t 0 (sa.get b)
      else sp
    if 1 < e - b ∧ has_potential_tandem_repeats sp1 ep0 ep1 then
      let r := partition_tandem_repeats sa b e matchLen tr
      (r.2.1, b + r.1, sp1, r.2.2)
    else (sa, b, sp1, tr)
  else (sa, b, sp, tr)

/-- The multikey_quicksort of msufsort.cpp (lines 488-619): tandem repeat
gate, insertion sort below the size threshold, otherwise five-candidate
median selection of three pivots, one seven-way partitioning sweep and seven
sequential recursive calls.  Fuel bounds the recursion depth; ample fuel
never runs out. -/
def multikey_quicksort (t : List Nat) :
    Nat → Arr → Nat → Nat → Nat → Nat → Nat → Nat →
    List tandem_repeat_info → Arr × List tandem_repeat_info
  | 0, sa, _, _, _, _, _, _, tr => (sa, tr)
  | fuel + 1, sa, b, e, matchLen, sp, ep0, ep1, tr =>
    if e - b < 2 then (sa, tr)
    else
      let g := mqs_tandem_gate t sa b e matchLen sp ep0 ep1 tr
      let sa0 := g.1
      let b0 := g.2.1
      let sp0 := g.2.2.1
      let tr0 := g.2.2.2
      if e - b0 < insertion_sort_threshold then
        multikey_insertion_sort t (16 * (t.length + 16) + 64) sa0 b0 e matchLen sp0 ep0 ep1 tr0
      else
        let size := e - b0
        let oneSixth := (size * 2863311531) >>> 34
        let pc1 := b0 + oneSixth
        let pc2 := pc1 + oneSixth
        let pc3 := pc2 + oneSixth
        let pc4 := pc3 + oneSixth
        let pc5 := pc4 + oneSixth
        let v1 := get_value t matchLen (sa0.get pc1)
        let v2 := get_value t matchLen (sa0.get pc2)
        let v3 := get_value t matchLen (sa0.get pc3)
        let v4 := get_value t matchLen (sa0.get pc4)
        let v5 := get_value t matchLen (sa0.get pc5)
        let s1 := pivot_step sa0 pc1 pc2 v1 v2
        let s2 := pivot_step s1.1 pc4 pc5 v4 v5
        let s3 := pivot_step s2.1 pc1 pc3 s1.2.1 v3
        let s4 := pivot_step s3.1 pc2 pc3 s1.2.2 s3.2.2
        let s5 := pivot_step s4.1 pc1 pc4 s3.2.1 s2.2.1
        let s6 := pivot_step s5.1 pc3 pc4 s4.2.2 s5.2.2
        let s7 := pivot_step s6.1 pc2 pc5 s4.2.1 s2.2.2
        let s8 := pivot_step s7.1 pc2 pc3 s7.2.1 s6.2.1
        let s9 := pivot_step s8.1 pc4 pc5 s6.2.2 s7.2.2
        let p1 := s5.2.1
        let p2 := s8.2.2
        let p3 := s9.2.2
        let saA := swapF s9.1 b0 pc1
        let d12 := if p1 ≠ p2 then 1 else 0
        let saB := swapF saA (b0 + 1) pc3
        let e0 := e - 1
        let q :=
          if p2 ≠ p3 then (swapF saB e0 pc5, e0 - 1, e0 - 1) else (saB, e0, e0)
        let saC := q.1
        let ep2i := q.2.1
        let bp3i := q.2.2
        let st0 : MqsPartState :=
          { sa := saC, cur := b0 + 2, bp1 := b0, ep1 := b0 + d12, bp2 := b0 + d12,
            ep2 := ep2i, bp3 := bp3i, ep3 := e0,
            cv := get_value t matchLen (saC.get (b0 + 2)),
            nv := get_value t matchLen (saC.get (b0 + 3)),
            ndv := get_value t matchLen (saC.get ep2i) }
        let fin := mqs_partition_loop t matchLen p1 p2 p3 (ep2i + 1 - (b0 + 2)) st0
        let r1 := multikey_quicksort t fuel fin.sa b0 fin.bp1 matchLen sp0 ep0 ep1 tr0
        let r2 := multikey_quicksort t fuel r1.1 fin.bp1 fin.ep1 (matchLen + suffix_value_size) sp0 ep1 p1 r1.2
        let r3 := multikey_quicksort t fuel r2.1 fin.ep1 fin.bp2 matchLen sp0 ep0 ep1 r2.2
        let r4 := multikey_quicksort t fuel r3.1 fin.bp2 (fin.ep2 + 1) (matchLen + suffix_value_size) sp0 ep1 p2 r3.2
        let r5 := multikey_quicksort t fuel r4.1 (fin.ep2 + 1) (fin.bp3 + 1) matchLen sp0 ep0 ep1 r4.2
        let r6 := multikey_quicksort t fuel r5.1 (fin.bp3 + 1) (fin.ep3 + 1) (matchLen + suffix_value_size) sp0 ep1 p3 r5.2
        multikey_quicksort t fuel r6.1 (fin.ep3 + 1) e matchLen sp0 ep0 ep1 r6.2

/-- ISA marking loop of complete_tandem_repeat (msufsort.cpp lines 405-409):
walks the repeat region right to left, writing
tandemRepeatLength | is_tandem_repeat_length into the ISA slot index>>1.
The ISA overlays the suffix array starting at slot isaBase. -/
def ctr_mark (isaBase len : Nat) : Nat → Nat → Arr → Arr
  | 0, _, sa => sa
  | steps + 1, cur, sa =>
    let idx := sa.get cur &&& sa_index_mask
    ctr_mark isaBase len steps (cur - 1)
      (setF sa (isaBase + (idx >>> 1)) (len ||| is_tandem_repeat_length))

/-- Binary search of complete_tandem_repeat (lines 413-430) for the number
of terminators whose suffix sorts at or after its own suffix shifted by the
tandem repeat length. -/
def ctr_bsearch (t : List Nat) (sa : Arr) (tBegin len : Nat) :
    Nat → Int → Int → Nat → Nat
  | 0, _, _, numTypeA => numTypeA
  | fuel + 1, a, b, numTypeA =>
    if a ≤ b then
      let m := (a + b) / 2
      if !(compare_suffixes t 0 (sa.get (tBegin + m.toNat)) (sa.get (tBegin + m.toNat) + len)) then
        ctr_bsearch t sa tBegin len fuel a (m - 1) m.toNat
      else
        ctr_bsearch t sa tBegin len fuel (m + 1) b (m.toNat + 1)
    else numTypeA

/-- Cascading ascending sweep placing type A repeats (lines 438-460). -/
def ctr_sweep_a (t : List Nat) (isaBase len : Nat) :
    Nat → Nat → Nat → Nat → Arr → Arr
  | 0, _, _, _, sa => sa
  | fuel + 1, current, currentEnd, next, sa =>
    if current = currentEnd then
      if currentEnd = next then sa
      else ctr_sweep_a t isaBase len fuel current next next sa
    else
      let index := sa.get current &&& sa_index_mask
      let p :=
        if len ≤ index then
          let pot := index - len
          let isaV := sa.get (isaBase + (pot >>> 1))
          if isaV &&& is_tandem_repeat_length ≠ 0 ∧ isaV &&& isa_index_mask = len then
            let flag :=
              if 0 < pot ∧ byteAt t ((pot : Int) - 1) ≤ byteAt t pot then 0
              else preceding_suffix_is_type_a_flag
            (setF sa next (pot ||| flag), next + 1)
          else (sa, next)
        else (sa, next)
      ctr_sweep_a t isaBase len fuel (current + 1) currentEnd p.2 p.1

/-- Cascading descending sweep placing type B repeats (lines 461-483). -/
def ctr_sweep_b (t : List Nat) (isaBase len : Nat) :
    Nat → Nat → Nat → Nat → Arr → Arr
  | 0, _, _, _, sa => sa
  | fuel + 1, current, currentEnd, next, sa =>
    if current = currentEnd then
      if currentEnd = next then sa
      else ctr_sweep_b t isaBase len fuel current next next sa
    else
      let index := sa.get current &&& sa_index_mask
      let p :=
        if len ≤ index then
          let pot := index - len
          let isaV := sa.get (isaBase + (pot >>> 1))
          if isaV &&& is_tandem_repeat_length ≠ 0 ∧ isaV &&& isa_index_mask = len then
            let flag :=
              if 0 < pot ∧ byteAt t ((pot : Int) - 1) ≤ byteAt t pot then 0
              else preceding_suffix_is_type_a_flag
            (setF sa next (pot ||| flag), next - 1)
          else (sa, next)
        else (sa, next)
      ctr_sweep_b t isaBase len fuel (current - 1) currentEnd p.2 p.1

/-- The complete_tandem_repeat procedure of msufsort.cpp (lines 396-484):
marks the repeats in the ISA overlay, splits the sorted terminators into the
numTypeA/numTypeB groups by binary search, copies the type A terminators to
the front of the partition, and induces the repeats by the two cascading
sweeps. -/
def complete_tandem_repeat (t : List Nat) (n : Nat) (sa : Arr)
    (info : tandem_repeat_info) : Arr :=
  let isaBase := (n + 1) >>> 1
  let pb := info.partitionBegin
  let pe := info.partitionEnd
  let numT := info.numTerminators
  let len := info.tandemRepeatLength
  let tBegin := pe - numT
  let sa1 := ctr_mark isaBase len (tBegin - pb) (tBegin - 1) sa
  let numTypeA := min (ctr_bsearch t sa1 tBegin len (numT + 4) 0 ((numT : Int) - 1) 0) numT
  let numTypeB := numT - numTypeA
  let sa2 := loopUp numTypeA (fun i sa => setF sa (pb + i) (sa.get (tBegin + i))) sa1
  let sa3 := ctr_sweep_a t isaBase len (2 * (pe - pb) + 4) pb (pb + numTypeA) (pb + numTypeA) sa2
  ctr_sweep_b t isaBase len (2 * (pe - pb) + 4) (pe - 1) (pe - 1 - numTypeB) (pe - 1 - numTypeB) sa3

/-- The complete_tandem_repeats drain (msufsort.cpp lines 381-392): pops the
stack (most recently pushed record first) and completes each record. -/
def complete_tandem_repeats (t : List Nat) (n : Nat) (sa : Arr)
    (tr : List tandem_repeat_info) : Arr :=
  tr.foldl (complete_tandem_repeat t n) sa

/-- Result of the count reduction in first_stage_its (lines 1565-1577): the
16-bit keyed bCount / aCount arrays and the per-leading-byte bCount_ /
aCount_ totals. -/
structure ReducedCounts where
  bCount : Arr
  bCount1 : Arr
  aCount : Arr
  aCount1 : Arr

/-- Count reduction of first_stage_its, single-threaded: the extra type A
count for the final suffix (++aCount[T[N-1] << 8]; ++aCount_[T[N-1]]) is
applied first, then the per-thread counts are folded in for every 16-bit
key j: bCount[j] += threadB[j]; bCount_[j >> 8] += threadB[j] + bStar[j];
aCount[j] += threadA[j]; aCount_[j >> 8] += threadA[j]. -/
def reduce_counts (t : List Nat) (cs : CountState) : ReducedCounts :=
  let lastByte := byteAt t ((t.length : Int) - 1)
  loopUp 65536 (fun j st =>
    { bCount := bump st.bCount j (cs.bC.get j)
      bCount1 := bump st.bCount1 (j >>> 8) (cs.bC.get j + cs.bStarC.get j)
      aCount := bump st.aCount j (cs.aC.get j)
      aCount1 := bump st.aCount1 (j >>> 8) (cs.aC.get j) })
    { bCount := zeroF, bCount1 := zeroF,
      aCount := incF zeroF (lastByte <<< 8), aCount1 := incF zeroF lastByte }

/-- Ordering of B* partitions by size ascending, used by the std::sort call
of first_stage_its before the quicksort queue is drained (the sort keys of
distinct partitions may tie; insertionSort resolves ties stably, and the
partitions are disjoint, so the final array does not depend on this
choice). -/
def partition_size_le (a b : Nat × Nat × Nat) : Prop := a.2.1 ≤ b.2.1

instance : DecidableRel partition_size_le := fun _ _ => Nat.decLe _ _

/-- Spread loop of first_stage_its (lines 1679-1696), walking the 16-bit
buckets from 0xffff down to 0: B* entries of each bucket are copied from the
staging prefix to the tail of the bucket, remaining B slots are filled with
the unsorted-B sentinel and A slots with the type A flag. -/
def first_stage_spread (bCount aCount totalBStarCount : Arr)
    (total bStarTotal : Nat) (sa : Arr) : Arr :=
  (loopDown 65536 (fun i st =>
    if bCount.get i ≠ 0 ∨ aCount.get i ≠ 0 then
      let destination := st.2.1 - bCount.get i
      let source := st.2.2 - totalBStarCount.get i
      let sa1 := loopDown (totalBStarCount.get i)
        (fun j sa => setF sa (destination + j) (sa.get (source + j))) st.1
      let sa2 := loopUp (bCount.get i - totalBStarCount.get i)
        (fun j sa => setF sa (destination + totalBStarCount.get i + j) suffix_is_unsorted_b_type) sa1
      let destination2 := destination - aCount.get i
      let sa3 := loopUp (aCount.get i)
        (fun j sa => setF sa (destination2 + j) preceding_suffix_is_type_a_flag) sa2
      (sa3, destination2, source)
    else st) (sa, total, bStarTotal)).1

/-- The first_stage_its of msufsort.cpp (lines 1536-1703), single-threaded:
counting, bucket layout, two-byte radix scatter of the B* suffixes, multikey
quicksort of every B* partition in descending size order (the worker loop
consumes the size-sorted queue from the back), tandem repeat completion, and
the spread to the final bucket layout.  Returns the suffix array function
together with the front / back bucket cursors and the per-leading-byte
totals, which persist as members for the second stage. -/
structure FirstStageResult where
  sa : Arr
  front : Arr
  back : Arr
  bCount1 : Arr
  aCount1 : Arr

def first_stage_its (t : List Nat) : FirstStageResult :=
  let n := t.length
  let cs := count_suffixes t ((n : Int) - 2) 0 ⟨zeroF, zeroF, zeroF⟩
  let red := reduce_counts t cs
  let off := first_stage_offsets red.aCount cs.bStarC red.bCount
  let rs := initial_two_byte_radix_sort t ((n : Int) - 2) 0 zeroF off.bStarOffset
  let parts := (List.insertionSort partition_size_le off.partitions).reverse
  let q := parts.foldl (fun p part =>
    multikey_quicksort t (2 * n + 64) p.1 part.1 (part.1 + part.2.1) 2 0 0 part.2.2 p.2)
    (rs.1, [])
  let sa2 := complete_tandem_repeats t n q.1 q.2
  let sa3 := first_stage_spread off.bCount red.aCount off.totalBStarCount
    off.total off.bStarTotal sa2
  { sa := setF sa3 0 (n ||| preceding_suffix_is_type_a_flag)
    front := off.front
    back := off.back
    bCount1 := red.bCount1
    aCount1 := red.aCount1 }

/-- Inner loop of the right-to-left induction pass
(second_stage_its_right_to_left_pass_single_threaded, lines 786-802) for one
leading symbol i: processes the bucket positions from cursor down, inducing
the preceding suffix of every entry whose type A flag is clear through the
back bucket cursor of the pair (precedingSymbol, i).  The cached prevWrite
pointer of the source is the cursor cell (i << 8) + prevSym. -/
def ss_rtl_inner (t : List Nat) (i : Nat) :
    Nat → Nat → Nat → Arr → Arr → Arr × Arr
  | 0, _, _, sa, back => (sa, back)
  | steps + 1, cursor, prevSym, sa, back =>
    let v := sa.get cursor
    let p :=
      if v &&& preceding_suffix_is_type_a_flag = 0 then
        let pidx := (v &&& sa_index_mask) - 1
        let psym := byteAt t pidx
        let fl :=
          if 0 < pidx ∧ byteAt t ((pidx : Int) - 1) ≤ psym then 0
          else preceding_suffix_is_type_a_flag
        let prevSym' := psym
        let key := (i <<< 8) + prevSym'
        let back' := setF back key (back.get key - 1)
        (setF sa (back'.get key) (pidx ||| fl), back', prevSym')
      else (sa, back, prevSym)
    ss_rtl_inner t i steps (cursor - 1) p.2.2 p.1 p.2.1

/-- The right-to-left induction pass, single-threaded: for every leading
symbol from 0xff down to 0, the bucket's B region (bCount_[i] slots) is
walked right to left, then the cursor skips the aCount_[i] A slots. -/
def second_stage_its_right_to_left_pass_single_threaded (t : List Nat)
    (sa back bCount1 aCount1 : Arr) : Arr × Arr :=
  let res := loopDown 256 (fun i st =>
    let r := ss_rtl_inner t i (bCount1.get i) st.2.2 0 st.1 st.2.1
    (r.1, r.2, st.2.2 - bCount1.get i - aCount1.get i)) (sa, back, t.length)
  (res.1, res.2.1)

/-- One step of the left-to-right induction pass
(second_stage_its_left_to_right_pass_single_threaded, lines 816-839) at SA
slot k: entries whose type A flag is set induce their preceding suffix
through the front bucket cursor (unless the entry is the sentinel, whose
masked index is 0) and then have their flag cleared. -/
def ss_ltr_step (t : List Nat) (k : Nat)
    (st : Arr × Arr × Nat) : Arr × Arr × Nat :=
  let v := st.1.get k
  if v &&& preceding_suffix_is_type_a_flag ≠ 0 then
    let p :=
      if v &&& sa_index_mask ≠ 0 then
        let pidx := (v &&& sa_index_mask) - 1
        let psym := byteAt t pidx
        let fl :=
          if 0 < pidx ∧ psym ≤ byteAt t ((pidx : Int) - 1) then
            preceding_suffix_is_type_a_flag
          else 0
        let prevSym' := psym
        let front' := setF st.2.1 prevSym' (st.2.1.get prevSym' + 1)
        (setF st.1 (st.2.1.get prevSym') (pidx ||| fl), front', prevSym')
      else (st.1, st.2.1, st.2.2)
    (setF p.1 k (v &&& sa_index_mask), p.2.1, p.2.2)
  else st

/-- The left-to-right induction pass, single-threaded: one sweep over all
N + 1 SA slots. -/
def second_stage_its_left_to_right_pass_single_threaded (t : List Nat)
    (sa front : Arr) : Arr :=
  (loopUp (t.length + 1) (fun k st => ss_ltr_step t k st) (sa, front, 0)).1

/-- The make_suffix_array of msufsort.cpp (lines 1707-1744) with
numThreads = 1: first stage, then the two single-threaded induction passes
of second_stage_its, returning the N + 1 suffix array entries. -/
def make_suffix_array (t : List Nat) : List Nat :=
  let n := t.length
  let fs := first_stage_its t
  let r := second_stage_its_right_to_left_pass_single_threaded t fs.sa fs.back
    fs.bCount1 fs.aCount1
  let sa2 := second_stage_its_left_to_right_pass_single_threaded t r.1 fs.front
  (List.range (n + 1)).map sa2.get

/-- Inner loop of the BWT right-to-left pass
(second_stage_its_as_burrows_wheeler_transform_right_to_left_pass_single_threaded,
lines 1052-1070): like the plain pass, but each processed slot is then
overwritten with the preceding symbol.  The masked index of a processed
entry is nonzero exactly when the source pointer test
precedingSuffix >= inputBegin_ succeeds. -/
def ss_bwt_rtl_inner (t : List Nat) (i : Nat) :
    Nat → Nat → Nat → Arr → Arr → Arr × Arr
  | 0, _, _, sa, back => (sa, back)
  | steps + 1, cursor, prevSym, sa, back =>
    let v := sa.get cursor
    let p :=
      if v &&& preceding_suffix_is_type_a_flag = 0 then
        let pidx := (v &&& sa_index_mask) - 1
        let psym := byteAt t pidx
        let fl :=
          if 0 < pidx ∧ byteAt t ((pidx : Int) - 1) ≤ psym then 0
          else preceding_suffix_is_type_a_flag
        let key := (i <<< 8) + psym
        let back' := setF back key (back.get key - 1)
        let sa' := setF sa (back'.get key) (pidx ||| fl)
        let sa'' := if 1 ≤ v &&& sa_index_mask then setF sa' cursor psym else sa'
        (sa'', back', psym)
      else (sa, back, prevSym)
    ss_bwt_rtl_inner t i steps (cursor - 1) p.2.2 p.1 p.2.1

/-- The BWT right-to-left pass, single-threaded. -/
def ss_bwt_rtl (t : List Nat) (sa back bCount1 aCount1 : Arr) :
    Arr × Arr :=
  let res := loopDown 256 (fun i st =>
    let r := ss_bwt_rtl_inner t i (bCount1.get i) st.2.2 0 st.1 st.2.1
    (r.1, r.2, st.2.2 - bCount1.get i - aCount1.get i)) (sa, back, t.length)
  (res.1, res.2.1)

/-- One step of the BWT left-to-right pass
(second_stage_its_as_burrows_wheeler_transform_left_to_right_pass_single_threaded,
lines 1239-1265) at slot k.  The state carries the suffix array, the front
cursors, the previous preceding symbol and the sentinel slot found so far.
For an entry with the type A flag set: when the masked index is nonzero the
preceding suffix is pushed through the front cursor (as index|flag when the
preceding suffix is type A, as its own preceding byte otherwise) and the
slot is overwritten with the preceding symbol; when the masked index is zero
(precedingSuffixIndex < 0 in the source) the slot index is recorded as the
sentinel. -/
def ss_bwt_ltr_step (t : List Nat) (k : Nat)
    (st : Arr × Arr × Nat × Nat) :
    Arr × Arr × Nat × Nat :=
  let v := st.1.get k
  if v &&& preceding_suffix_is_type_a_flag ≠ 0 then
    if v &&& sa_index_mask ≠ 0 then
      let pidx := (v &&& sa_index_mask) - 1
      let psym := byteAt t pidx
      let fl :=
        if 0 < pidx ∧ psym ≤ byteAt t ((pidx : Int) - 1) then
          preceding_suffix_is_type_a_flag
        else 0
      let w :=
        if fl ≠ 0 then pidx ||| fl
        else if 0 < pidx then byteAt t ((pidx : Int) - 1)
        else preceding_suffix_is_type_a_flag
      let sa1 := setF st.1 (st.2.1.get psym) w
      let front1 := setF st.2.1 psym (st.2.1.get psym + 1)
      (setF sa1 k (byteAt t pidx), front1, psym, st.2.2.2)
    else (st.1, st.2.1, st.2.2.1, k)
  else st

/-- The BWT left-to-right pass, single-threaded: sweeps all N + 1 slots and
returns the array together with the sentinel index. -/
def ss_bwt_ltr (t : List Nat) (sa front : Arr) : Arr × Nat :=
  let res := loopUp (t.length + 1) (fun k st => ss_bwt_ltr_step t k st) (sa, front, 0, 0)
  (res.1, res.2.2.2)

/-- The forward_burrows_wheeler_transform of msufsort.cpp (lines 1748-1794)
with numThreads = 1: first stage, the two BWT induction passes, and the
collapse of the suffix array into the transformed byte stream, skipping the
sentinel slot (the (uint8_t) cast of the readout is the low byte).  Returns
the transformed bytes and the sentinel index. -/
def forward_burrows_wheeler_transform (t : List Nat) : List Nat × Nat :=
  let n := t.length
  let fs := first_stage_its t
  let r := ss_bwt_rtl t fs.sa fs.back fs.bCount1 fs.aCount1
  let l := ss_bwt_ltr t r.1 fs.front
  (((List.range (n + 1)).filter (fun i => i ≠ l.2)).map (fun i => l.1.get i &&& 0xFF), l.2)

/-! Reverse Burrows-Wheeler transform (msufsort.cpp lines 1798-2073),
single-threaded instance (numThreads = 1: the one worker covers the whole
input in every parallel phase). -/

/-- The uint32 bit pattern of an int32 value (used to store the
sentinelIndex argument, which enters comparisons as a signed value but is
stored and flag-tested as a bit pattern). -/
def toPattern (s : Int) : Nat := ((s % 4294967296 + 4294967296) % 4294967296).toNat

/-- The index array of the inverse BWT: entries are (value_, symbol_). -/
structure IdxArr where
  get : Nat → Nat × Nat

/-- Point update of the index array. -/
def setIdx (f : IdxArr) (k : Nat) (v : Nat × Nat) : IdxArr :=
  ⟨fun x => if x = k then v else f.get x⟩

/-- Pair-counting loop of the rank build (lines 1842-1844): counts the
little-endian 16-bit word at every even position below size - 1. -/
def rbwt_pair_loop (l : List Nat) : Nat → Nat → Arr → Arr
  | 0, _, sc => sc
  | steps + 1, i, sc =>
    rbwt_pair_loop l steps (i + 2) (incF sc (byteAt l i + (byteAt l (i + 1) <<< 8)))

/-- Per-symbol occurrence counts of the input (lines 1835-1852): the 16-bit
pair counts are distributed onto their low and high bytes, and an odd final
byte is counted directly. -/
def rbwt_symbol_count (l : List Nat) : Arr :=
  let sc := rbwt_pair_loop l (l.length / 2) 0 zeroF
  let r := loopUp 65536 (fun i r => bump (bump r (i &&& 0xFF) (sc.get i)) (i >>> 8) (sc.get i)) zeroF
  if l.length &&& 1 = 1 then incF r (byteAt l ((l.length : Int) - 1)) else r

/-- Cumulative rank offsets (lines 1857-1866): symbolRange[c] becomes
1 + number of bytes smaller than c; the running total starts at 1 for the
sentinel. -/
def rbwt_prefix (sr : Arr) : Arr :=
  (loopUp 256 (fun i st => (setF st.1 i st.2, st.2 + sr.get i)) (sr, 1)).1

/-- Index fill loop (lines 1883-1891), single thread covering [0, size):
writes index[k] = {n, data[k - (k >= sentinelIndex)]} where k is the rank
cursor of data[i] and n skips the sentinel position. -/
def rbwt_fill (l : List Nat) (s : Int) :
    Nat → Nat → Int → Arr → IdxArr → IdxArr
  | 0, _, _, _, idx => idx
  | steps + 1, i, n, sr, idx =>
    let n1 := n + (if (i : Int) = s then 1 else 0)
    let c := byteAt l i
    let k := sr.get c
    let koff := k - (if s ≤ (k : Int) then 1 else 0)
    rbwt_fill l s steps (i + 1) (n1 + 1) (setF sr c (k + 1))
      (setIdx idx k (toPattern n1, byteAt l koff))

/-- A partition of the cooperative inverse-BWT decoder
(ibwt_partition_info): chain indices and the owned output slice; a null
output pointer is None. -/
structure ibwt_partition_info where
  startIndex : Nat
  currentIndex : Nat
  beginOutput : Option Nat
  currentOutput : Option Nat
  endOutput : Option Nat

/-- Pointer comparison currentOutput_ < endOutput_ (null compares false). -/
def optLt : Option Nat → Option Nat → Bool
  | some a, some b => decide (a < b)
  | _, _ => false

/-- Partition setup loop (lines 1909-1920): cuts the index space into
partitions of maxBytesPerPartition entries, records each partition's start
chain index and output slice, and marks the entry as visited. -/
def ibwt_setup (idx : IdxArr) (size maxBytes : Nat) :
    Nat → Nat → Nat → List ibwt_partition_info → IdxArr →
    List ibwt_partition_info × IdxArr
  | 0, _, _, ps, idx' => (ps, idx')
  | fuel + 1, ci, outPos, ps, idx' =>
    if size ≤ ci then (ps, idx')
    else
      let psize := min maxBytes (size - ci)
      let v := (idx'.get ci).1
      let e : ibwt_partition_info :=
        { startIndex := v, currentIndex := v, beginOutput := some outPos,
          currentOutput := some outPos,
          endOutput := some (min (outPos + psize) (size - 1)) }
      ibwt_setup idx size maxBytes fuel (ci + psize) (outPos + psize) (ps ++ [e])
        (setIdx idx' ci (v ||| 0x80000000, (idx'.get ci).2))

/-- One pass of the chain-following loop (lines 1973-1989): every live
partition with output space advances one chain step: the symbol at the
current index is emitted (the output cursor does not advance at the sentinel
index) and the current index follows the stored link.  Returns whether any
partition made progress. -/
def ibwt_pass (idx : IdxArr) (s : Int) :
    List ibwt_partition_info → Arr →
    List ibwt_partition_info × Arr × Bool :=
  fun ps out =>
    ps.foldl (fun acc e =>
      if e.currentIndex &&& 0x80000000 = 0 ∧ optLt e.currentOutput e.endOutput then
        let i : Nat := e.currentIndex
        let out' :=
          match acc.2.1, e.currentOutput with
          | o, some p => setF o p (idx.get i).2
          | o, none => o
        let co' := if (i : Int) ≠ s then e.currentOutput.map (· + 1) else e.currentOutput
        (acc.1 ++ [{ e with currentOutput := co', currentIndex := (idx.get i).1 }], out', true)
      else (acc.1 ++ [e], acc.2.1, acc.2.2)) ([], out, false)

/-- The done-loop around ibwt_pass: repeats until no partition advances. -/
def ibwt_inner (idx : IdxArr) (s : Int) :
    Nat → List ibwt_partition_info → Arr →
    List ibwt_partition_info × Arr
  | 0, ps, out => (ps, out)
  | fuel + 1, ps, out =>
    let r := ibwt_pass idx s ps out
    if r.2.2 then ibwt_inner idx s fuel r.1 r.2.1 else (ps, out)

/-- A decoded segment (decoded_info of the source): output slice bounds and
the chain indices at which it starts and ends. -/
structure decoded_info where
  dbegin : Nat
  dend : Nat
  startIndex : Nat
  endIndex : Nat

/-- Reconciliation sweep (lines 1997-2019): records every partition's newly
decoded segment, banks the leftover space of finished partitions on the
available-space stack, and erases finished partitions. -/
def ibwt_reconcile (ps : List ibwt_partition_info)
    (decoded : List decoded_info) (spaces : List (Nat × Nat)) :
    List ibwt_partition_info × List decoded_info × List (Nat × Nat) :=
  ps.foldl (fun acc e =>
    let endIdx := e.currentIndex &&& 0x7FFFFFFF
    let hit := e.currentIndex &&& 0x80000000 ≠ 0
    let rec1 :=
      if e.currentOutput ≠ none ∧ (hit ∨ e.beginOutput ≠ e.currentOutput) then
        (acc.2.1 ++ [⟨e.beginOutput.getD 0, (e.currentOutput).getD 0, e.startIndex, endIdx⟩],
          { e with startIndex := endIdx })
      else (acc.2.1, e)
    if hit then
      let spaces' :=
        if optLt e.currentOutput e.endOutput then
          ((e.currentOutput).getD 0, (e.endOutput).getD 0) :: acc.2.2
        else acc.2.2
      (acc.1, rec1.1, spaces')
    else (acc.1 ++ [rec1.2], rec1.1, acc.2.2)) ([], decoded, spaces)

/-- Reassignment of banked output space to the surviving partitions (lines
2021-2039): each partition in order takes the most recently banked slice, or
loses its output pointers when none is left. -/
def ibwt_reassign :
    List ibwt_partition_info → List (Nat × Nat) →
    List ibwt_partition_info × List (Nat × Nat)
  | [], spaces => ([], spaces)
  | e :: rest, spaces =>
    let p :=
      match spaces with
      | a :: more =>
        ({ e with
            beginOutput := some a.1
            currentOutput := some a.1
            endOutput := some a.2 }, more)
      | [] => ({ e with currentOutput := none, endOutput := none }, [])
    let r := ibwt_reassign rest p.2
    (p.1 :: r.1, r.2)

/-- The round loop (lines 1953-2040): chain following, reconciliation and
reassignment until every partition has finished. -/
def ibwt_rounds (idx : IdxArr) (s : Int) :
    Nat → List ibwt_partition_info → Arr → List decoded_info →
    List (Nat × Nat) → Arr × List decoded_info
  | 0, _, out, decoded, _ => (out, decoded)
  | fuel + 1, ps, out, decoded, spaces =>
    match ps with
    | [] => (out, decoded)
    | _ =>
      let r1 := ibwt_inner idx s (fuel + 1) ps out
      let r2 := ibwt_reconcile r1.1 decoded spaces
      let r3 :=
        match r2.1 with
        | [] => (r2.1, r2.2.2)
        | _ => ibwt_reassign r2.1 r2.2.2
      ibwt_rounds idx s fuel r3.1 r1.2 r2.2.1 r3.2

/-- Concatenation loop (lines 2042-2070): chains the decoded segments
together, starting from the segment whose startIndex is the first decode
index, copying bytes into the output buffer; a missing successor segment
leaves the cursor stuck, which exhausts the fuel (the source loops forever
there). -/
def ibwt_concat (decoded : List decoded_info) (out : Arr) (n : Nat) :
    Nat → Nat → Nat → Nat → Nat → Arr → Option Arr
  | 0, _, _, _, _, _ => none
  | fuel + 1, cw, curDec, curDecEnd, curEnd, buf =>
    if n ≤ cw then some buf
    else
      let c := min (n - cw) (curDecEnd - curDec)
      let buf' := loopUp c (fun k b => setF b (cw + k) (out.get (curDec + k))) buf
      match decoded.find? (fun d => d.startIndex = curEnd) with
      | some d => ibwt_concat decoded out n fuel (cw + c) d.dbegin d.dend d.endIndex buf'
      | none => ibwt_concat decoded out n fuel (cw + c) (curDec + c) curDecEnd curEnd buf'

/-- The reverse_burrows_wheeler_transform of msufsort.cpp with
numThreads = 1: rank build, index fill, partitioned cooperative chain
following, and segment concatenation.  The result is None when the fuel runs
out, which models the non-terminating executions of the source. -/
def reverse_burrows_wheeler_transform (fuel : Nat) (l : List Nat)
    (sentinelIndex : Int) : Option (List Nat) :=
  let n := l.length
  let sr := rbwt_prefix (rbwt_symbol_count l)
  let idx0 := setIdx ⟨fun _ => (0, 0)⟩ 0 (toPattern sentinelIndex, byteAt l 0)
  let idx := rbwt_fill l sentinelIndex n 0
    (if (0 : Int) > sentinelIndex then 1 else 0) sr idx0
  let partitionCount := min 256 (n + 1)
  let maxBytes := (2 * (n + 1) - 1) / partitionCount
  let firstDecodeIndex := (idx.get 0).1
  let su := ibwt_setup idx (n + 1) maxBytes (n + 4) 0 0 [] idx
  let r := ibwt_rounds su.2 sentinelIndex fuel su.1 zeroF [] []
  let start :=
    match r.2.find? (fun d => d.startIndex = firstDecodeIndex) with
    | some d => (d.dbegin, d.dend, d.endIndex)
    | none => (0, 0, 0)
  (ibwt_concat r.2 r.1 n fuel 0 start.1 start.2.1 start.2.2 zeroF).map
    (fun buf => (List.range n).map buf.get)

/-! Specification-side definitions used by the tandem repeat theorems. -/

/-- Masked suffix index of an SA entry. -/
def masked (x : Nat) : Nat := x &&& sa_index_mask

/-- Gaps between consecutive masked suffix indices of an index-sorted
partition. -/
def consecutive_gaps (asc : List Nat) : List Nat :=
  (asc.zip asc.tail).map (fun pq => masked pq.2 - masked pq.1)

/-- The tandem repeat period as the specification words it: the gap of the
first (leftmost) consecutive pair of the index-sorted partition whose gap is
at most half the common match length. -/
def spec_first_period (asc : List Nat) (half : Nat) : Option Nat :=
  (consecutive_gaps asc).find? (fun g => decide (g ≤ half))

/-- The repeat suffixes as the specification words them: the entries of the
index-sorted partition whose successor in ascending index order is exactly
period bytes later. -/
def spec_repeats (asc : List Nat) (period : Nat) : List Nat :=
  ((asc.zip asc.tail).filter (fun pq => decide (masked pq.2 = masked pq.1 + period))).map Prod.fst

end Msufsort

namespace Msufsort

/-! Theorems. -/

/-- Claim C8, counterexample: the tandem repeat threshold constant declared
in msufsort.h is not 10; it is 2 + sizeof(uint64_t) + sizeof(uint64_t). -/
theorem c8_threshold_not_ten : min_length_before_tandem_repeat_check ≠ 10 := by
  decide

/-- Claim C8 (amended): the tandem repeat check is attempted only when the
partition's common match length has reached
min_length_before_tandem_repeat_check, and that threshold equals 18
(2 plus twice the 8-byte window size), not 10: for every partition whose
match length is below 18, both tandem repeat gates (the one of
multikey_quicksort and the one of multikey_insertion_sort) leave the state
untouched and never invoke the tandem repeat partitioner. -/
theorem c8_tandem_gate_threshold :
    min_length_before_tandem_repeat_check = 2 + 8 + 8 ∧
    min_match_length_for_tandem_repeats = min_length_before_tandem_repeat_check ∧
    (∀ t sa b e matchLen sp ep0 ep1 tr,
      matchLen < min_length_before_tandem_repeat_check →
      mqs_tandem_gate t sa b e matchLen sp ep0 ep1 tr = (sa, b, sp, tr)) ∧
    (∀ sa pb size matchLen potential tr,
      matchLen < min_length_before_tandem_repeat_check →
      mis_tandem_gate sa pb size matchLen potential tr = (sa, pb, size, tr)) := by
  refine ⟨rfl, rfl, ?_, ?_⟩
  · intro t sa b e matchLen sp ep0 ep1 tr h
    unfold mqs_tandem_gate
    rw [if_neg]
    intro hle
    exact absurd h (not_lt.mpr hle)
  · intro sa pb size matchLen potential tr h
    unfold mis_tandem_gate
    rw [if_neg]
    intro hle
    exact absurd h (not_lt.mpr hle.1)

/-- Witness for the amended claim C8 theorem at a concrete instance: a match
length of 10 (the threshold the specification expected) is below the actual
threshold, and both gates leave the state untouched there. -/
theorem c8_tandem_gate_threshold_witness :
    (10 < min_length_before_tandem_repeat_check ∧
      mqs_tandem_gate [] zeroF 0 5 10 0 0 0 [] = (zeroF, 0, 0, [])) ∧
    mis_tandem_gate zeroF 0 5 10 true [] = (zeroF, 0, 5, []) :=
  ⟨⟨by decide, c8_tandem_gate_threshold.2.2.1 [] zeroF 0 5 10 0 0 0 [] (by decide)⟩,
    c8_tandem_gate_threshold.2.2.2 zeroF 0 5 10 true [] (by decide)⟩

end Msufsort

namespace Msufsort

/-- The comparator of the std::sort call is total. -/
instance : IsTotal Nat tr_le := ⟨fun a b => Nat.le_total (a &&& sa_index_mask) (b &&& sa_index_mask)⟩

/-- The comparator of the std::sort call is transitive. -/
instance : IsTrans Nat tr_le := ⟨fun _ _ _ h1 h2 => Nat.le_trans h1 h2⟩

/-- Reading a freshly written slot. -/
lemma getD_set_self (l : List Nat) (i x : Nat) (h : i < l.length) :
    (l.set i x).getD i 0 = x := by
  rw [List.getD_eq_getElem _ _ (by simpa using h)]
  exact List.getElem_set_self _

/-- Reading any other slot after a write. -/
lemma getD_set_other (l : List Nat) (i x p : Nat) (h : i ≠ p) :
    (l.set i x).getD p 0 = l.getD p 0 := by
  simp [List.getD_eq_getElem?_getD, List.getElem?_set, h]

/-- A swap preserves the length. -/
lemma listSwap_length (l : List Nat) (i j : Nat) :
    (listSwap l i j).length = l.length := by
  simp [listSwap]

/-- The second swapped slot receives the first slot's value. -/
lemma listSwap_getD_snd (l : List Nat) (i j : Nat) (hj : j < l.length) :
    (listSwap l i j).getD j 0 = l.getD i 0 := by
  unfold listSwap
  exact getD_set_self _ _ _ (by simpa using hj)

/-- The first swapped slot receives the second slot's value. -/
lemma listSwap_getD_fst (l : List Nat) (i j : Nat) (hij : j ≠ i) (hi : i < l.length) :
    (listSwap l i j).getD i 0 = l.getD j 0 := by
  unfold listSwap
  rw [getD_set_other _ _ _ _ hij]
  exact getD_set_self _ _ _ hi

/-- Slots not involved in a swap are untouched. -/
lemma listSwap_getD_other (l : List Nat) (i j p : Nat) (hpi : i ≠ p) (hpj : j ≠ p) :
    (listSwap l i j).getD p 0 = l.getD p 0 := by
  unfold listSwap
  rw [getD_set_other _ _ _ _ hpj, getD_set_other _ _ _ _ hpi]

/-- A swap of two in-range slots permutes the list. -/
lemma listSwap_perm (l : List Nat) (i j : Nat) (hi : i < l.length) (hj : j < l.length) :
    (listSwap l i j).Perm l := by
  rw [List.perm_iff_count]
  intro a
  have hgi : l.getD i 0 = l[i] := List.getD_eq_getElem _ _ hi
  have hgj : l.getD j 0 = l[j] := List.getD_eq_getElem _ _ hj
  have hji : j < (l.set i (l.getD j 0)).length := by simpa using hj
  unfold listSwap
  rw [List.count_set _ _ _ _ hji, List.count_set _ _ _ _ hi]
  have hset : (l.set i (l.getD j 0))[j] = l[j] := by
    by_cases hij : i = j
    · subst hij
      rw [List.getElem_set_self]
      exact hgj
    · exact List.getElem_set_ne hij _
  rw [hset, hgi, hgj]
  by_cases hia : l[i] = a
  · have hc : 1 ≤ List.count a l := by
      rw [Nat.one_le_iff_ne_zero]
      intro h0
      have := List.count_eq_zero.mp h0
      exact this (hia ▸ List.getElem_mem hi)
    by_cases hja : l[j] = a <;> simp [hia, hja] <;> omega
  · by_cases hja : l[j] = a <;> simp [hia, hja] <;> omega

end Msufsort

namespace Msufsort

/-- Reading a slot of a dropped list. -/
lemma getD_drop (L : List Nat) (k i : Nat) :
    (L.drop k).getD i 0 = L.getD (k + i) 0 := by
  simp [List.getD_eq_getElem?_getD, List.getElem?_drop]

/-- Positional membership characterization for a dropped list. -/
lemma mem_drop_iff_getD (L : List Nat) (k x : Nat) :
    x ∈ L.drop k ↔ ∃ j, k ≤ j ∧ j < L.length ∧ L.getD j 0 = x := by
  constructor
  · intro hx
    rcases List.mem_iff_getElem.mp hx with ⟨i, hi, rfl⟩
    have hlen : i < L.length - k := by simpa [List.length_drop] using hi
    refine ⟨k + i, Nat.le_add_right _ _, by omega, ?_⟩
    rw [← getD_drop, List.getD_eq_getElem _ _ hi]
  · rintro ⟨j, hkj, hj, rfl⟩
    have hlen : j - k < (L.drop k).length := by rw [List.length_drop]; omega
    rw [List.mem_iff_getElem]
    refine ⟨j - k, hlen, ?_⟩
    rw [← List.getD_eq_getElem _ 0 hlen, getD_drop]
    congr 1
    omega

/-- Positional membership characterization for a taken prefix. -/
lemma mem_take_iff_getD (L : List Nat) (k x : Nat) :
    x ∈ L.take k ↔ ∃ j, j < k ∧ j < L.length ∧ L.getD j 0 = x := by
  constructor
  · intro hx
    rcases List.mem_iff_getElem.mp hx with ⟨i, hi, rfl⟩
    have hlen : i < k ∧ i < L.length := by
      rw [List.length_take] at hi
      omega
    refine ⟨i, hlen.1, hlen.2, ?_⟩
    rw [List.getElem_take, List.getD_eq_getElem _ _ hlen.2]
  · rintro ⟨j, hjk, hj, rfl⟩
    have hlen : j < (L.take k).length := by rw [List.length_take]; omega
    rw [List.mem_iff_getElem]
    refine ⟨j, hlen, ?_⟩
    rw [List.getElem_take, List.getD_eq_getElem _ _ hj]

/-- The first components of the pairing of a list with its own tail form the
prefix that omits the last element. -/
lemma zip_tail_map_fst (l : List Nat) :
    (l.zip l.tail).map Prod.fst = l.take (l.length - 1) := by
  induction l with
  | nil => rfl
  | cons a t ih =>
    cases t with
    | nil => rfl
    | cons b t2 =>
      have ih2 := ih
      simp only [List.tail_cons] at ih2
      show ((a, b) :: ((b :: t2).zip t2)).map Prod.fst
          = (a :: b :: t2).take ((a :: b :: t2).length - 1)
      simp only [List.map_cons, List.length_cons]
      rw [ih2]
      simp [List.length_cons]

end Msufsort

namespace Msufsort

/-- Sorting a partition whose masked suffix indices are pairwise distinct
produces a strictly ascending sequence of masked indices. -/
lemma insertionSort_strict_ascent (l : List Nat) (hnd : (l.map masked).Nodup) :
    List.Pairwise (fun a b => masked a < masked b) (List.insertionSort tr_le l) := by
  have hs : List.Sorted tr_le (List.insertionSort tr_le l) :=
    List.sorted_insertionSort tr_le l
  have hperm : (List.insertionSort tr_le l).Perm l := List.perm_insertionSort tr_le l
  have hnd2 : ((List.insertionSort tr_le l).map masked).Nodup :=
    ((hperm.map masked).nodup_iff).mpr hnd
  have hne : List.Pairwise (fun a b => masked a ≠ masked b) (List.insertionSort tr_le l) :=
    List.pairwise_map.mp hnd2
  exact (hs.and hne).imp (fun h => lt_of_le_of_ne h.1 h.2)

/-- Gap list of a two-or-more element partition, first step. -/
lemma consecutive_gaps_cons (p c : Nat) (rest : List Nat) :
    consecutive_gaps (p :: c :: rest) = (masked c - masked p) :: consecutive_gaps (c :: rest) := rfl

/-- Every gap of a strictly ascending partition is positive. -/
lemma consecutive_gaps_pos (asc : List Nat)
    (h : List.Pairwise (fun a b => masked a < masked b) asc) :
    ∀ g ∈ consecutive_gaps asc, 0 < g := by
  intro g hg
  rw [consecutive_gaps] at hg
  rcases List.mem_map.mp hg with ⟨pq, hmem, rfl⟩
  rcases List.mem_iff_getElem.mp hmem with ⟨i, hi, rfl⟩
  have h2 : i < asc.length ∧ i < asc.length - 1 := by
    rw [List.length_zip, List.length_tail] at hi
    exact lt_min_iff.mp hi
  have hlen : i + 1 < asc.length := by omega
  have hti : i < asc.tail.length := by rw [List.length_tail]; omega
  rw [List.getElem_zip]
  simp only
  rw [List.getElem_tail]
  have := List.pairwise_iff_getElem.mp h i (i + 1) h2.1 hlen (by omega)
  omega

/-- The detection loop of partition_tandem_repeats returns exactly the first
gap that is at most half the match length (or 0 when there is none), provided
the scanned sequence is strictly ascending in masked index. -/
lemma tr_find_eq (half : Nat) (p : Nat) (rest : List Nat)
    (h : List.Chain (fun a b => masked a < masked b) p rest) :
    tr_find half (masked p) rest = (spec_first_period (p :: rest) half).getD 0 := by
  induction rest generalizing p with
  | nil => rfl
  | cons c rest ih =>
    rcases List.chain_cons.mp h with ⟨hpc, hc⟩
    have hmc : (c &&& sa_index_mask) = masked c := rfl
    rw [spec_first_period, consecutive_gaps_cons]
    by_cases hle : masked c - masked p ≤ half
    · have hge : masked p + half ≥ masked c := by omega
      have hne : ¬(masked c - masked p = 0) := by omega
      rw [List.find?_cons_of_pos _ (by simpa using hle)]
      simp only [Option.getD_some]
      simp only [tr_find, hmc]
      rw [if_pos hge, if_neg hne]
    · have hge : ¬(masked p + half ≥ masked c) := by omega
      rw [List.find?_cons_of_neg _ (by simpa using hle)]
      have hrec := ih c hc
      rw [spec_first_period] at hrec
      simp only [tr_find, hmc]
      rw [if_neg hge]
      exact hrec

/-- The detected period is positive on a strictly ascending partition. -/
lemma spec_first_period_pos (asc : List Nat) (half period : Nat)
    (h : List.Pairwise (fun a b => masked a < masked b) asc)
    (hfind : spec_first_period asc half = some period) : 0 < period := by
  have hmem : period ∈ consecutive_gaps asc := List.mem_of_find?_eq_some hfind
  exact consecutive_gaps_pos asc h period hmem

/-- Membership in the repeat-suffix list, positionally. -/
lemma mem_spec_repeats (asc : List Nat) (period x : Nat) :
    x ∈ spec_repeats asc period ↔
      ∃ i, i + 1 < asc.length ∧ x = asc.getD i 0 ∧
        masked (asc.getD (i + 1) 0) = masked (asc.getD i 0) + period := by
  rw [spec_repeats]
  constructor
  · intro hx
    rcases List.mem_map.mp hx with ⟨pq, hmem, rfl⟩
    rcases List.mem_filter.mp hmem with ⟨hz, hp⟩
    rcases List.mem_iff_getElem.mp hz with ⟨i, hi, rfl⟩
    have h2 : i < asc.length ∧ i < asc.length - 1 := by
      rw [List.length_zip, List.length_tail] at hi
      exact lt_min_iff.mp hi
    have hlen : i + 1 < asc.length := by omega
    have hti : i < asc.tail.length := by rw [List.length_tail]; omega
    rw [List.getElem_zip] at hp ⊢
    simp only at hp ⊢
    rw [List.getElem_tail] at hp
    refine ⟨i, hlen, ?_, ?_⟩
    · rw [List.getD_eq_getElem _ _ h2.1]
    · have := of_decide_eq_true hp
      rw [List.getD_eq_getElem _ 0 hlen, List.getD_eq_getElem _ 0 h2.1]
      exact this
  · rintro ⟨i, hlen, rfl, hrep⟩
    have hi : i < asc.length := by omega
    have hti : i < asc.tail.length := by rw [List.length_tail]; omega
    have hzi : i < (asc.zip asc.tail).length := by
      rw [List.length_zip, List.length_tail]
      exact lt_min_iff.mpr ⟨hi, by omega⟩
    refine List.mem_map.mpr ⟨(asc[i], asc[i + 1]), List.mem_filter.mpr ⟨?_, ?_⟩, ?_⟩
    · rw [List.mem_iff_getElem]
      refine ⟨i, hzi, ?_⟩
      rw [List.getElem_zip, List.getElem_tail]
    · simp only [decide_eq_true_eq]
      rw [List.getD_eq_getElem _ 0 hlen, List.getD_eq_getElem _ 0 hi] at hrep
      exact hrep
    · simp only
      rw [List.getD_eq_getElem _ _ hi]

/-- On a duplicate-free partition, the entry at a slot is a repeat suffix
exactly when the next entry in ascending index order is period bytes later. -/
lemma getD_mem_spec_repeats (asc : List Nat) (period s : Nat) (hnd : asc.Nodup)
    (hs : s < asc.length) :
    asc.getD s 0 ∈ spec_repeats asc period ↔
      (s + 1 < asc.length ∧ masked (asc.getD (s + 1) 0) = masked (asc.getD s 0) + period) := by
  rw [mem_spec_repeats]
  constructor
  · rintro ⟨i, hi, heq, hrep⟩
    have hieq : i = s := by
      have hi2 : i < asc.length := by omega
      have h1 : asc[i] = asc[s] := by
        rw [← List.getD_eq_getElem asc 0 hi2, ← List.getD_eq_getElem asc 0 hs]
        exact heq.symm
      exact (hnd.getElem_inj_iff).mp h1
    subst hieq
    exact ⟨hi, hrep⟩
  · rintro ⟨h1, h2⟩
    exact ⟨s, h1, rfl, h2⟩

end Msufsort

namespace Msufsort

/-- Invariant of the right-to-left separation walk: positions below the scan
point still hold the sorted partition, the region up to terminatorsEnd holds
only suffixes that are not repeats, the region beyond terminatorsEnd holds
only repeats, and the whole walked region stays a permutation. -/
lemma tr_walk_loop_inv (asc : List Nat) (period : Nat)
    (hnd : asc.Nodup)
    (hchain : List.Pairwise (fun a b => masked a < masked b) asc) :
    ∀ (s t : Nat) (L : List Nat),
      s ≤ t → t < asc.length → L.length = asc.length →
      (∀ p, p < s → L.getD p 0 = asc.getD p 0) →
      ((L.drop s).Perm (asc.drop s)) →
      (∀ j, s ≤ j → j ≤ t → L.getD j 0 ∉ spec_repeats asc period) →
      (∀ j, t < j → j < asc.length → L.getD j 0 ∈ spec_repeats asc period) →
      ((tr_walk_loop period s (s - 1) t (masked (asc.getD s 0)) L).1.length = asc.length ∧
       (tr_walk_loop period s (s - 1) t (masked (asc.getD s 0)) L).1.Perm asc ∧
       (tr_walk_loop period s (s - 1) t (masked (asc.getD s 0)) L).2 ≤ t ∧
       (∀ j, j ≤ (tr_walk_loop period s (s - 1) t (masked (asc.getD s 0)) L).2 →
          (tr_walk_loop period s (s - 1) t (masked (asc.getD s 0)) L).1.getD j 0 ∉
            spec_repeats asc period) ∧
       (∀ j, (tr_walk_loop period s (s - 1) t (masked (asc.getD s 0)) L).2 < j →
          j < asc.length →
          (tr_walk_loop period s (s - 1) t (masked (asc.getD s 0)) L).1.getD j 0 ∈
            spec_repeats asc period)) := by
  intro s
  induction s with
  | zero =>
    intro t L hst htlen hLlen hpre hperm hmid htail
    refine ⟨hLlen, by simpa using hperm, Nat.le_refl t, ?_, htail⟩
    intro j hj
    exact hmid j (Nat.zero_le j) hj
  | succ s ih =>
    intro t L hst htlen hLlen hpre hperm hmid htail
    have hsn : s + 1 < asc.length := lt_of_le_of_lt hst htlen
    have hcur : L.getD s 0 = asc.getD s 0 := hpre s (Nat.lt_succ_self s)
    have hmask : masked (asc.getD s 0) < masked (asc.getD (s + 1) 0) := by
      have := List.pairwise_iff_getElem.mp hchain s (s + 1) (by omega) hsn (by omega)
      rwa [← List.getD_eq_getElem asc 0 (by omega : s < asc.length),
        ← List.getD_eq_getElem asc 0 hsn] at this
    have hcm : L.getD s 0 &&& sa_index_mask = masked (asc.getD s 0) := by
      rw [hcur]; rfl
    have hrep_iff : asc.getD s 0 ∈ spec_repeats asc period ↔
        masked (asc.getD (s + 1) 0) = masked (asc.getD s 0) + period := by
      rw [getD_mem_spec_repeats asc period s hnd (by omega)]
      constructor
      · rintro ⟨_, h⟩; exact h
      · intro h; exact ⟨hsn, h⟩
    by_cases hc : masked (asc.getD (s + 1) 0) - masked (asc.getD s 0) = period
    · -- the scanned suffix is a tandem repeat: swap it to the tail
      have hcrep : asc.getD s 0 ∈ spec_repeats asc period :=
        hrep_iff.mpr (by omega)
      have hunfold : tr_walk_loop period (s + 1) (s + 1 - 1) t
            (masked (asc.getD (s + 1) 0)) L =
          tr_walk_loop period s (s - 1) (t - 1) (masked (asc.getD s 0)) (listSwap L t s) := by
        show tr_walk_loop period (s + 1) s t (masked (asc.getD (s + 1) 0)) L = _
        simp only [tr_walk_loop, hcm]
        rw [if_pos hc]
      rw [hunfold]
      have hslt : s < t := hst
      have htL : t < L.length := by omega
      have hsL : s < L.length := by omega
      have hswap_len : (listSwap L t s).length = asc.length := by
        rw [listSwap_length, hLlen]
      have hpre2 : ∀ p, p < s → (listSwap L t s).getD p 0 = asc.getD p 0 := by
        intro p hp
        rw [listSwap_getD_other L t s p (by omega) (by omega)]
        exact hpre p (by omega)
      have hdropswap : (listSwap L t s).drop s = listSwap (L.drop s) (t - s) 0 := by
        show ((L.set t (L.getD s 0)).set s (L.getD t 0)).drop s = _
        rw [List.drop_set, if_neg (by omega : ¬ s < s),
          List.drop_set, if_neg (by omega : ¬ t < s)]
        show ((L.drop s).set (t - s) (L.getD s 0)).set (s - s) (L.getD t 0) = _
        have h1 : (L.drop s).getD 0 0 = L.getD s 0 := by simp [getD_drop]
        have h2 : (L.drop s).getD (t - s) 0 = L.getD t 0 := by
          rw [getD_drop]
          congr 1
          omega
        have h3 : s - s = 0 := by omega
        rw [h3, listSwap, h1, h2]
      have hperm2 : ((listSwap L t s).drop s).Perm (asc.drop s) := by
        rw [hdropswap]
        have hlen1 : t - s < (L.drop s).length := by
          rw [List.length_drop]; omega
        have hlen2 : 0 < (L.drop s).length := by
          rw [List.length_drop]; omega
        refine (listSwap_perm (L.drop s) (t - s) 0 hlen1 hlen2).trans ?_
        have hLs : L.drop s = L.getD s 0 :: L.drop (s + 1) := by
          rw [List.drop_eq_getElem_cons hsL, List.getD_eq_getElem _ _ hsL]
        have hascs : asc.drop s = asc.getD s 0 :: asc.drop (s + 1) := by
          rw [List.drop_eq_getElem_cons (by omega : s < asc.length),
            List.getD_eq_getElem _ 0 (by omega : s < asc.length)]
        rw [hLs, hascs, hcur]
        exact hperm.cons (asc.getD s 0)
      have hmid2 : ∀ j, s ≤ j → j ≤ t - 1 →
          (listSwap L t s).getD j 0 ∉ spec_repeats asc period := by
        intro j hj1 hj2
        by_cases hjs : j = s
        · rw [hjs, listSwap_getD_snd L t s hsL]
          exact hmid t hst (Nat.le_refl t)
        · rw [listSwap_getD_other L t s j (by omega) (by omega)]
          exact hmid j (by omega) (by omega)
      have htail2 : ∀ j, t - 1 < j → j < asc.length →
          (listSwap L t s).getD j 0 ∈ spec_repeats asc period := by
        intro j hj1 hj2
        by_cases hjt : j = t
        · rw [hjt, listSwap_getD_fst L t s (by omega) htL, hcur]
          exact hcrep
        · rw [listSwap_getD_other L t s j (by omega) (by omega)]
          exact htail j (by omega) hj2
      obtain ⟨r1, r2, r3, r4, r5⟩ :=
        ih (t - 1) (listSwap L t s) (by omega) (by omega) hswap_len hpre2 hperm2 hmid2 htail2
      exact ⟨r1, r2, by omega, r4, fun j hj1 hj2 => r5 j hj1 hj2⟩
    · -- the scanned suffix is not a repeat: leave it in place
      have hcrep : asc.getD s 0 ∉ spec_repeats asc period := by
        rw [hrep_iff]
        omega
      have hunfold : tr_walk_loop period (s + 1) (s + 1 - 1) t
            (masked (asc.getD (s + 1) 0)) L =
          tr_walk_loop period s (s - 1) t (masked (asc.getD s 0)) L := by
        show tr_walk_loop period (s + 1) s t (masked (asc.getD (s + 1) 0)) L = _
        simp only [tr_walk_loop, hcm]
        rw [if_neg hc]
      rw [hunfold]
      have hperm2 : (L.drop s).Perm (asc.drop s) := by
        have hsL : s < L.length := by omega
        have hLs : L.drop s = L.getD s 0 :: L.drop (s + 1) := by
          rw [List.drop_eq_getElem_cons hsL, List.getD_eq_getElem _ _ hsL]
        have hascs : asc.drop s = asc.getD s 0 :: asc.drop (s + 1) := by
          rw [List.drop_eq_getElem_cons (by omega : s < asc.length),
            List.getD_eq_getElem _ 0 (by omega : s < asc.length)]
        rw [hLs, hascs, hcur]
        exact hperm.cons (asc.getD s 0)
      have hmid2 : ∀ j, s ≤ j → j ≤ t → L.getD j 0 ∉ spec_repeats asc period := by
        intro j hj1 hj2
        by_cases hjs : j = s
        · subst hjs
          rw [hcur]
          exact hcrep
        · exact hmid j (by omega) hj2
      exact ih t L (by omega) htlen hLlen (fun p hp => hpre p (by omega)) hperm2 hmid2 htail

end Msufsort

namespace Msufsort

/-- Repeat suffixes all come from the partition. -/
lemma spec_repeats_subset (asc : List Nat) (period : Nat) :
    spec_repeats asc period ⊆ asc := by
  intro x hx
  rcases (mem_spec_repeats asc period x).mp hx with ⟨i, hi, rfl, _⟩
  rw [List.getD_eq_getElem _ 0 (by omega : i < asc.length)]
  exact List.getElem_mem _

/-- The repeat-suffix list of a duplicate-free partition is duplicate free. -/
lemma spec_repeats_nodup (asc : List Nat) (period : Nat) (hnd : asc.Nodup) :
    (spec_repeats asc period).Nodup := by
  have h1 : (spec_repeats asc period).Sublist ((asc.zip asc.tail).map Prod.fst) :=
    (List.filter_sublist _).map Prod.fst
  rw [zip_tail_map_fst] at h1
  exact (h1.trans (List.take_sublist _ _)).nodup hnd

/-- Summary of the separation walk over the whole sorted partition. -/
lemma tr_walk_spec (asc : List Nat) (period : Nat)
    (hnd : asc.Nodup)
    (hchain : List.Pairwise (fun a b => masked a < masked b) asc)
    (hlen : 2 ≤ asc.length) :
    (tr_walk asc period).1.length = asc.length ∧
    (tr_walk asc period).1.Perm asc ∧
    (tr_walk asc period).2 ≤ asc.length - 1 ∧
    (∀ j, j ≤ (tr_walk asc period).2 →
       (tr_walk asc period).1.getD j 0 ∉ spec_repeats asc period) ∧
    (∀ j, (tr_walk asc period).2 < j → j < asc.length →
       (tr_walk asc period).1.getD j 0 ∈ spec_repeats asc period) := by
  have heq : tr_walk asc period
      = tr_walk_loop period (asc.length - 1) (asc.length - 1 - 1) (asc.length - 1)
        (masked (asc.getD (asc.length - 1) 0)) asc := by
    have h12 : asc.length - 2 = asc.length - 1 - 1 := by omega
    unfold tr_walk
    rw [h12]
    rfl
  have hmid0 : ∀ j, asc.length - 1 ≤ j → j ≤ asc.length - 1 →
      asc.getD j 0 ∉ spec_repeats asc period := by
    intro j h1 h2
    have hj : j = asc.length - 1 := by omega
    rw [hj, getD_mem_spec_repeats asc period _ hnd (by omega)]
    rintro ⟨hlt, _⟩
    omega
  have htail0 : ∀ j, asc.length - 1 < j → j < asc.length →
      asc.getD j 0 ∈ spec_repeats asc period := by
    intro j h1 h2
    exact absurd h2 (by omega)
  have h := tr_walk_loop_inv asc period hnd hchain (asc.length - 1) (asc.length - 1) asc
    (Nat.le_refl _) (by omega) rfl (fun p hp => rfl) (List.Perm.refl _) hmid0 htail0
  rw [heq]
  exact h

/-- The slots beyond the final terminatorsEnd hold exactly the repeat
suffixes, as a permutation. -/
lemma walk_tail_perm (asc W : List Nat) (tE period : Nat) (hnd : asc.Nodup)
    (hWp : W.Perm asc) (hWlen : W.length = asc.length)
    (hmid : ∀ j, j ≤ tE → W.getD j 0 ∉ spec_repeats asc period)
    (htail : ∀ j, tE < j → j < asc.length → W.getD j 0 ∈ spec_repeats asc period) :
    (W.drop (tE + 1)).Perm (spec_repeats asc period) := by
  have hWnd : W.Nodup := (hWp.nodup_iff).mpr hnd
  refine List.Subperm.antisymm ?_ ?_
  · refine List.subperm_of_subset ((List.drop_sublist _ _).nodup hWnd) ?_
    intro x hx
    rcases (mem_drop_iff_getD W (tE + 1) x).mp hx with ⟨j, hj1, hj2, rfl⟩
    exact htail j (by omega) (by omega)
  · refine List.subperm_of_subset (spec_repeats_nodup asc period hnd) ?_
    intro x hx
    have hxW : x ∈ W := (hWp.mem_iff).mpr (spec_repeats_subset asc period hx)
    rcases List.mem_iff_getElem.mp hxW with ⟨j, hj, rfl⟩
    have hgd : W.getD j 0 = W[j] := List.getD_eq_getElem _ _ hj
    by_cases hjt : j ≤ tE
    · have hin : W.getD j 0 ∈ spec_repeats asc period := by rw [hgd]; exact hx
      exact absurd hin (hmid j hjt)
    · exact (mem_drop_iff_getD W (tE + 1) _).mpr ⟨j, by omega, hj, hgd⟩

end Msufsort

namespace Msufsort

/-- Claim C6: partition_tandem_repeats first sorts the partition by masked
suffix index ascending; the period is the gap of the first (leftmost)
consecutive pair at most half the match length apart, and when no such pair
exists the function returns 0 and only sorts the partition; otherwise it
returns the number of repeat suffixes, which land at the front of the
partition (the suffixes whose successor in ascending index order is exactly
period later), followed by the terminator suffixes only, which are the range
handed back to the enclosing quicksort. -/
theorem c6_partition_tandem_repeats (l : List Nat) (matchLen : Nat)
    (hlen : 2 ≤ l.length) (hnd : (l.map masked).Nodup) :
    (spec_first_period (List.insertionSort tr_le l) (matchLen >>> 1) = none →
      partition_tandem_repeats_list l matchLen = (List.insertionSort tr_le l, 0, none)) ∧
    (∀ period, spec_first_period (List.insertionSort tr_le l) (matchLen >>> 1) = some period →
      (partition_tandem_repeats_list l matchLen).2.1
          = (spec_repeats (List.insertionSort tr_le l) period).length ∧
      ((partition_tandem_repeats_list l matchLen).1.take
          (partition_tandem_repeats_list l matchLen).2.1).Perm
        (spec_repeats (List.insertionSort tr_le l) period) ∧
      (∀ x ∈ (partition_tandem_repeats_list l matchLen).1.drop
          (partition_tandem_repeats_list l matchLen).2.1,
          x ∈ l ∧ x ∉ spec_repeats (List.insertionSort tr_le l) period) ∧
      (partition_tandem_repeats_list l matchLen).1.Perm l ∧
      (partition_tandem_repeats_list l matchLen).2.2
          = some (l.length - (partition_tandem_repeats_list l matchLen).2.1, period)) := by
  have hperm : (List.insertionSort tr_le l).Perm l := List.perm_insertionSort tr_le l
  have hasc : List.Pairwise (fun a b => masked a < masked b) (List.insertionSort tr_le l) :=
    insertionSort_strict_ascent l hnd
  have hAnd : (List.insertionSort tr_le l).Nodup := by
    have hndm : ((List.insertionSort tr_le l).map masked).Nodup :=
      ((hperm.map masked).nodup_iff).mpr hnd
    exact List.Nodup.of_map masked hndm
  have hlen2 : 2 ≤ (List.insertionSort tr_le l).length := by
    rw [hperm.length_eq]
    exact hlen
  have htr : tr_find (matchLen >>> 1)
      ((List.insertionSort tr_le l).headD 0 &&& sa_index_mask)
      (List.insertionSort tr_le l).tail
      = (spec_first_period (List.insertionSort tr_le l) (matchLen >>> 1)).getD 0 := by
    obtain ⟨p, rest, hcons⟩ : ∃ p rest, List.insertionSort tr_le l = p :: rest := by
      cases h : List.insertionSort tr_le l with
      | nil =>
        rw [h] at hlen2
        simp at hlen2
      | cons a t => exact ⟨a, t, rfl⟩
    have hchain : List.Chain (fun a b => masked a < masked b) p rest := by
      have hp2 := hasc
      rw [hcons] at hp2
      exact hp2.chain'
    rw [hcons]
    show tr_find _ (p &&& sa_index_mask) rest = _
    exact tr_find_eq _ p rest hchain
  constructor
  · intro hnone
    have h0 : tr_find (matchLen >>> 1)
        ((List.insertionSort tr_le l).headD 0 &&& sa_index_mask)
        (List.insertionSort tr_le l).tail = 0 := by
      rw [htr, hnone]
      rfl
    simp only [partition_tandem_repeats_list]
    rw [if_pos h0]
  · intro period hsome
    have hppos : 0 < period := spec_first_period_pos _ _ _ hasc hsome
    have hptr : tr_find (matchLen >>> 1)
        ((List.insertionSort tr_le l).headD 0 &&& sa_index_mask)
        (List.insertionSort tr_le l).tail = period := by
      rw [htr, hsome]
      rfl
    obtain ⟨w1, w2, w3, w4, w5⟩ :=
      tr_walk_spec (List.insertionSort tr_le l) period hAnd hasc hlen2
    have hWlen : (tr_walk (List.insertionSort tr_le l) period).1.length = l.length := by
      rw [w1, hperm.length_eq]
    have htE : (tr_walk (List.insertionSort tr_le l) period).2 + 1 ≤ l.length := by
      have := hperm.length_eq
      omega
    have hT : ((tr_walk (List.insertionSort tr_le l) period).1.drop
        ((tr_walk (List.insertionSort tr_le l) period).2 + 1)).Perm
        (spec_repeats (List.insertionSort tr_le l) period) :=
      walk_tail_perm (List.insertionSort tr_le l) _ _ period hAnd w2 w1 w4 w5
    have hTlen := hT.length_eq
    rw [List.length_drop] at hTlen
    simp only [partition_tandem_repeats_list]
    rw [hptr, if_neg (by omega : ¬ period = 0)]
    dsimp only
    have hcnt : (tr_walk (List.insertionSort tr_le l) period).1.length
        - (l.length - ((tr_walk (List.insertionSort tr_le l) period).2 + 1))
        = (tr_walk (List.insertionSort tr_le l) period).2 + 1 := by
      omega
    refine ⟨by omega, ?_, ?_, ?_, ?_⟩
    · rw [List.take_reverse, hcnt]
      exact (List.reverse_perm _).trans hT
    · intro x hx
      rw [List.drop_reverse, hcnt, List.mem_reverse] at hx
      rcases (mem_take_iff_getD _ _ _).mp hx with ⟨j, hj1, hj2, rfl⟩
      constructor
      · have hmem : (tr_walk (List.insertionSort tr_le l) period).1.getD j 0
            ∈ (tr_walk (List.insertionSort tr_le l) period).1 := by
          rw [List.getD_eq_getElem _ _ hj2]
          exact List.getElem_mem hj2
        exact (hperm.mem_iff).mp ((w2.mem_iff).mp hmem)
      · exact w4 j (by omega)
    · exact (List.reverse_perm _).trans (w2.trans hperm)
    · rw [show l.length - (l.length
          - ((tr_walk (List.insertionSort tr_le l) period).2 + 1))
          = (tr_walk (List.insertionSort tr_le l) period).2 + 1 from by omega]

end Msufsort

namespace Msufsort

/-- Concrete instance of the C6 theorem: the partition 0,2,4,6,13 with match
length 18 has period 2; three repeat suffixes are split off and the record
counts two terminators. -/
theorem c6_partition_tandem_repeats_witness :
    (partition_tandem_repeats_list [0, 2, 4, 6, 13] 18).2.1
        = (spec_repeats (List.insertionSort tr_le [0, 2, 4, 6, 13]) 2).length ∧
    ((partition_tandem_repeats_list [0, 2, 4, 6, 13] 18).1.take
        (partition_tandem_repeats_list [0, 2, 4, 6, 13] 18).2.1).Perm
      (spec_repeats (List.insertionSort tr_le [0, 2, 4, 6, 13]) 2) ∧
    (partition_tandem_repeats_list [0, 2, 4, 6, 13] 18).1.Perm [0, 2, 4, 6, 13] ∧
    (partition_tandem_repeats_list [0, 2, 4, 6, 13] 18).2.2
        = some (([0, 2, 4, 6, 13] : List Nat).length
            - (partition_tandem_repeats_list [0, 2, 4, 6, 13] 18).2.1, 2) := by
  have h := (c6_partition_tandem_repeats [0, 2, 4, 6, 13] 18 (by decide) (by decide)).2
    2 (by decide)
  exact ⟨h.1, h.2.1, h.2.2.2.1, h.2.2.2.2⟩

end Msufsort

namespace Msufsort

/-- The array g agrees with f outside the slot range [b, e), and the
contents of [b, e) in g are a permutation of the contents in f: the
write/permutation discipline claimed for multikey_quicksort. -/
def permWithin (b e : Nat) (f g : Arr) : Prop :=
  (∀ k, k < b ∨ e ≤ k → g.get k = f.get k) ∧
  (readRange g b e).Perm (readRange f b e)

lemma permWithin_refl (b e : Nat) (f : Arr) : permWithin b e f f :=
  ⟨fun _ _ => rfl, List.Perm.refl _⟩

lemma permWithin_trans {b e : Nat} {f g h : Arr}
    (h1 : permWithin b e f g) (h2 : permWithin b e g h) : permWithin b e f h :=
  ⟨fun k hk => (h2.1 k hk).trans (h1.1 k hk), h2.2.trans h1.2⟩

lemma readRange_length (f : Arr) (b e : Nat) : (readRange f b e).length = e - b := by
  simp [readRange]

lemma readRange_getD (f : Arr) (b e n : Nat) (h : n < e - b) :
    (readRange f b e).getD n 0 = f.get (b + n) := by
  unfold readRange
  rw [List.getD_eq_getElem _ 0 (by simpa using h)]
  rw [List.getElem_map, List.getElem_range]

lemma readRange_congr {f g : Arr} {b e : Nat}
    (h : ∀ k, b ≤ k → k < e → f.get k = g.get k) :
    readRange f b e = readRange g b e := by
  unfold readRange
  apply List.map_congr_left
  intro a ha
  have := List.mem_range.mp ha
  exact h (b + a) (by omega) (by omega)

lemma readRange_nil (f : Arr) (b e : Nat) (h : e ≤ b) : readRange f b e = [] := by
  unfold readRange
  rw [show e - b = 0 from by omega]
  rfl

lemma readRange_split (f : Arr) (b m e : Nat) (h1 : b ≤ m) (h2 : m ≤ e) :
    readRange f b e = readRange f b m ++ readRange f m e := by
  unfold readRange
  rw [show e - b = (m - b) + (e - m) from by omega, List.range_add, List.map_append,
    List.map_map]
  congr 1
  apply List.map_congr_left
  intro a ha
  show f.get (b + (m - b + a)) = f.get (m + a)
  congr 1
  omega

lemma readRange_single (f : Arr) (b : Nat) : readRange f b (b + 1) = [f.get b] := by
  unfold readRange
  rw [show b + 1 - b = 1 from by omega]
  rfl

lemma readRange_cons (f : Arr) (b e : Nat) (h : b < e) :
    readRange f b e = f.get b :: readRange f (b + 1) e := by
  rw [readRange_split f b (b + 1) e (by omega) (by omega), readRange_single]
  rfl

lemma readRange_snoc (f : Arr) (b e : Nat) (h : b ≤ e) :
    readRange f b (e + 1) = readRange f b e ++ [f.get e] := by
  rw [readRange_split f b e (e + 1) h (by omega), readRange_single]

end Msufsort

namespace Msufsort

lemma permWithin_mono {b1 e1 b e : Nat} {f g : Arr}
    (hb : b ≤ b1) (hbe : b1 ≤ e1) (he : e1 ≤ e)
    (h : permWithin b1 e1 f g) : permWithin b e f g := by
  refine ⟨fun k hk => h.1 k (by omega), ?_⟩
  have hsplit : ∀ x : Arr, readRange x b e
      = readRange x b b1 ++ readRange x b1 e1 ++ readRange x e1 e := by
    intro x
    rw [readRange_split x b b1 e (by omega) (by omega),
      readRange_split x b1 e1 e (by omega) (by omega), List.append_assoc]
  rw [hsplit f, hsplit g]
  have hlow : readRange g b b1 = readRange f b b1 :=
    readRange_congr (fun k hk1 hk2 => h.1 k (by omega))
  have hhigh : readRange g e1 e = readRange f e1 e :=
    readRange_congr (fun k hk1 hk2 => h.1 k (by omega))
  rw [hlow, hhigh, List.append_assoc, List.append_assoc]
  exact (h.2.append_right _).append_left _

lemma setF_get_self (f : Arr) (k v : Nat) : (setF f k v).get k = v := by
  simp [setF]

lemma setF_get_other (f : Arr) (k v x : Nat) (h : x ≠ k) :
    (setF f k v).get x = f.get x := by
  simp [setF, h]

lemma swapF_get_fst (f : Arr) (i j : Nat) : (swapF f i j).get i = f.get j := by
  simp [swapF]

lemma swapF_get_snd (f : Arr) (i j : Nat) (h : j ≠ i) :
    (swapF f i j).get j = f.get i := by
  simp [swapF, h]

lemma swapF_get_other (f : Arr) (i j k : Nat) (h1 : k ≠ i) (h2 : k ≠ j) :
    (swapF f i j).get k = f.get k := by
  simp [swapF, h1, h2]

/-- A slot swap, restricted to a range containing both slots, is the
corresponding list swap of the range contents. -/
lemma readRange_swapF (f : Arr) (b e i j : Nat)
    (hi1 : b ≤ i) (hi2 : i < e) (hj1 : b ≤ j) (hj2 : j < e) :
    readRange (swapF f i j) b e = listSwap (readRange f b e) (i - b) (j - b) := by
  apply List.ext_getElem
  · rw [readRange_length, listSwap_length, readRange_length]
  · intro n h1 h2
    have hn : n < e - b := by rwa [readRange_length] at h1
    have hIlen : i - b < (readRange f b e).length := by rw [readRange_length]; omega
    have hJlen : j - b < (readRange f b e).length := by rw [readRange_length]; omega
    rw [← List.getD_eq_getElem _ 0 h1, ← List.getD_eq_getElem _ 0 h2]
    rw [readRange_getD _ _ _ _ hn]
    by_cases hnj : n = j - b
    · rw [hnj, listSwap_getD_snd _ _ _ hJlen, readRange_getD _ _ _ _ (by omega)]
      rw [show b + (j - b) = j from by omega, show b + (i - b) = i from by omega]
      by_cases hij : j = i
      · rw [hij, swapF_get_fst]
      · rw [swapF_get_snd f i j hij]
    · by_cases hni : n = i - b
      · rw [hni, listSwap_getD_fst _ _ _ (by omega) hIlen,
          readRange_getD _ _ _ _ (by omega)]
        have hbn : b + (i - b) = i := by omega
        rw [hbn, swapF_get_fst]
        congr 1
        omega
      · rw [listSwap_getD_other _ _ _ _ (by omega) (by omega),
          readRange_getD _ _ _ _ hn]
        rw [swapF_get_other f i j (b + n) (by omega) (by omega)]

end Msufsort

namespace Msufsort

/-- A swap of two slots inside [b, e) is a permutation within [b, e). -/
lemma swapF_permWithin (f : Arr) (b e i j : Nat)
    (hi1 : b ≤ i) (hi2 : i < e) (hj1 : b ≤ j) (hj2 : j < e) :
    permWithin b e f (swapF f i j) := by
  refine ⟨fun k hk => ?_, ?_⟩
  · exact swapF_get_other f i j k (by omega) (by omega)
  · rw [readRange_swapF f b e i j hi1 hi2 hj1 hj2]
    apply listSwap_perm
    · rw [readRange_length]; omega
    · rw [readRange_length]; omega

lemma writeRange_get_outside (f : Arr) (b : Nat) (l : List Nat) (k : Nat)
    (h : k < b ∨ b + l.length ≤ k) : (writeRange f b l).get k = f.get k := by
  show (if b ≤ k ∧ k < b + l.length then l.getD (k - b) 0 else f.get k) = f.get k
  rw [if_neg (by omega)]

lemma readRange_writeRange (f : Arr) (b : Nat) (l : List Nat) :
    readRange (writeRange f b l) b (b + l.length) = l := by
  apply List.ext_getElem
  · rw [readRange_length]; omega
  · intro n h1 h2
    have hn : n < l.length := by rwa [readRange_length, Nat.add_sub_cancel_left] at h1
    rw [← List.getD_eq_getElem _ 0 h1, readRange_getD _ _ _ _ (by omega)]
    show (if b ≤ b + n ∧ b + n < b + l.length then l.getD (b + n - b) 0 else f.get (b + n))
        = l[n]
    rw [if_pos (by omega), show b + n - b = n from by omega]
    exact List.getD_eq_getElem _ 0 hn

lemma readRange_writeRange_of (f : Arr) (b e : Nat) (l : List Nat)
    (h : e = b + l.length) : readRange (writeRange f b l) b e = l := by
  subst h
  exact readRange_writeRange f b l

/-- The separation walk permutes the list and never raises terminatorsEnd,
for any arguments with in-range scan and terminator pointers. -/
lemma tr_walk_loop_perm (period : Nat) :
    ∀ (steps : Nat), ∀ (cur tEnd prevIdx : Nat) (L : List Nat),
      steps ≤ cur + 1 → cur < L.length → tEnd < L.length →
      ((tr_walk_loop period steps cur tEnd prevIdx L).1.Perm L ∧
       (tr_walk_loop period steps cur tEnd prevIdx L).2 ≤ tEnd) := by
  intro steps
  induction steps with
  | zero =>
    intro cur tEnd prevIdx L h1 h2 h3
    exact ⟨List.Perm.refl _, Nat.le_refl _⟩
  | succ s ih =>
    intro cur tEnd prevIdx L h1 h2 h3
    by_cases hc : prevIdx - (L.getD cur 0 &&& sa_index_mask) = period
    · have hunfold : tr_walk_loop period (s + 1) cur tEnd prevIdx L
          = tr_walk_loop period s (cur - 1) (tEnd - 1) (L.getD cur 0 &&& sa_index_mask)
            (listSwap L tEnd cur) := by
        simp only [tr_walk_loop]
        rw [if_pos hc]
      rw [hunfold]
      have hlen : (listSwap L tEnd cur).length = L.length := listSwap_length _ _ _
      obtain ⟨ihp, iht⟩ := ih (cur - 1) (tEnd - 1) (L.getD cur 0 &&& sa_index_mask)
        (listSwap L tEnd cur) (by omega) (by omega) (by omega)
      exact ⟨ihp.trans (listSwap_perm L tEnd cur h3 h2), by omega⟩
    · have hunfold : tr_walk_loop period (s + 1) cur tEnd prevIdx L
          = tr_walk_loop period s (cur - 1) tEnd (L.getD cur 0 &&& sa_index_mask) L := by
        simp only [tr_walk_loop]
        rw [if_neg hc]
      rw [hunfold]
      exact ih (cur - 1) tEnd _ L (by omega) (by omega) h3

/-- The list-level partition_tandem_repeats permutes its partition, and the
reported number of repeat suffixes never exceeds the partition size. -/
lemma partition_tandem_repeats_list_perm (l : List Nat) (ml : Nat) :
    ((partition_tandem_repeats_list l ml).1).Perm l ∧
    (partition_tandem_repeats_list l ml).2.1 ≤ l.length := by
  simp only [partition_tandem_repeats_list]
  by_cases h0 : tr_find (ml >>> 1)
      ((List.insertionSort tr_le l).headD 0 &&& sa_index_mask)
      (List.insertionSort tr_le l).tail = 0
  · rw [if_pos h0]
    exact ⟨List.perm_insertionSort tr_le l, Nat.zero_le _⟩
  · rw [if_neg h0]
    dsimp only
    have hlen2 : 2 ≤ (List.insertionSort tr_le l).length := by
      by_contra hlt
      apply h0
      cases hs : List.insertionSort tr_le l with
      | nil => rfl
      | cons a t =>
        cases t with
        | nil => rfl
        | cons b2 t2 =>
          rw [hs] at hlt
          simp [List.length_cons] at hlt
    refine ⟨?_, by omega⟩
    have hwalk := tr_walk_loop_perm
      (tr_find (ml >>> 1) ((List.insertionSort tr_le l).headD 0 &&& sa_index_mask)
        (List.insertionSort tr_le l).tail)
      ((List.insertionSort tr_le l).length - 1)
      ((List.insertionSort tr_le l).length - 2)
      ((List.insertionSort tr_le l).length - 1)
      ((List.insertionSort tr_le l).getD ((List.insertionSort tr_le l).length - 1) 0
        &&& sa_index_mask)
      (List.insertionSort tr_le l) (by omega) (by omega) (by omega)
    exact ((List.reverse_perm _).trans hwalk.1).trans (List.perm_insertionSort tr_le l)

/-- The array-level partition_tandem_repeats is a permutation within its
slot range [b, e), and its repeat count is at most the range size. -/
lemma partition_tandem_repeats_permWithin (sa : Arr) (b e ml : Nat)
    (tr : List tandem_repeat_info) :
    permWithin b e sa (partition_tandem_repeats sa b e ml tr).2.1 ∧
    (partition_tandem_repeats sa b e ml tr).1 ≤ e - b := by
  obtain ⟨hp, hc⟩ := partition_tandem_repeats_list_perm (readRange sa b e) ml
  unfold partition_tandem_repeats
  dsimp only
  have hlen : (partition_tandem_repeats_list (readRange sa b e) ml).1.length = e - b := by
    rw [hp.length_eq, readRange_length]
  refine ⟨⟨fun k hk => ?_, ?_⟩, ?_⟩
  · apply writeRange_get_outside
    rw [hlen]
    omega
  · by_cases hbe : b ≤ e
    · rw [readRange_writeRange_of sa b e _ (by omega)]
      exact hp
    · rw [readRange_nil _ _ _ (by omega), readRange_nil _ _ _ (by omega)]
  · rw [readRange_length] at hc
    exact hc

end Msufsort

namespace Msufsort

/-- The shift loop of the insertion sort: the final insertion index is at
most the start index, slots below it and above the shifted region are
untouched, and the region one above the insertion point is the old region
shifted up one slot. -/
lemma mis_shift_spec (pb cv : Nat) :
    ∀ (j : Nat) (sa vals : Arr),
      ((mis_shift sa vals pb j cv).2.2 ≤ j) ∧
      (∀ k, k < pb + (mis_shift sa vals pb j cv).2.2 →
        (mis_shift sa vals pb j cv).1.get k = sa.get k) ∧
      (∀ k, pb + j < k → (mis_shift sa vals pb j cv).1.get k = sa.get k) ∧
      (∀ m, (mis_shift sa vals pb j cv).2.2 ≤ m → m < j →
        (mis_shift sa vals pb j cv).1.get (pb + m + 1) = sa.get (pb + m)) := by
  intro j
  induction j with
  | zero =>
    intro sa vals
    exact ⟨Nat.le_refl _, fun k _ => rfl, fun k _ => rfl, fun m h1 h2 => absurd h2 (by omega)⟩
  | succ j ih =>
    intro sa vals
    by_cases hgt : vals.get j > cv
    · have hunfold : mis_shift sa vals pb (j + 1) cv
          = mis_shift (setF sa (pb + j + 1) (sa.get (pb + j)))
              (setF vals (j + 1) (vals.get j)) pb j cv := by
        simp only [mis_shift]
        rw [if_pos hgt]
      rw [hunfold]
      obtain ⟨ih1, ih2, ih3, ih4⟩ := ih (setF sa (pb + j + 1) (sa.get (pb + j)))
        (setF vals (j + 1) (vals.get j))
      refine ⟨by omega, ?_, ?_, ?_⟩
      · intro k hk
        rw [ih2 k hk, setF_get_other _ _ _ _ (by omega)]
      · intro k hk
        rw [ih3 k (by omega), setF_get_other _ _ _ _ (by omega)]
      · intro m h1 h2
        by_cases hm : m = j
        · rw [hm, ih3 _ (by omega), setF_get_self]
        · rw [ih4 m h1 (by omega), setF_get_other _ _ _ _ (by omega)]
    · have hunfold : mis_shift sa vals pb (j + 1) cv = (sa, vals, j + 1) := by
        simp only [mis_shift]
        rw [if_neg hgt]
      rw [hunfold]
      refine ⟨Nat.le_refl _, fun k _ => rfl, fun k _ => rfl, fun m h1 h2 => ?_⟩
      have h1b : j + 1 ≤ m := h1
      omega

/-- One round of the insertion sort (shift then place) permutes the
partition range. -/
lemma mis_step_permWithin (sa vals : Arr) (pb size i cv : Nat)
    (hi1 : 1 ≤ i) (hi2 : i < size) :
    permWithin pb (pb + size) sa
      (setF (mis_shift sa vals pb i cv).1
        (pb + (mis_shift sa vals pb i cv).2.2) (sa.get (pb + i))) := by
  obtain ⟨h1, h2, h3, h4⟩ := mis_shift_spec pb cv i sa vals
  set pos := (mis_shift sa vals pb i cv).2.2 with hpos
  have hinner : permWithin (pb + pos) (pb + i + 1) sa
      (setF (mis_shift sa vals pb i cv).1 (pb + pos) (sa.get (pb + i))) := by
    constructor
    · intro k hk
      rw [setF_get_other _ _ _ _ (by omega)]
      rcases hk with hk | hk
      · exact h2 k hk
      · exact h3 k (by omega)
    · have hhead : readRange (setF (mis_shift sa vals pb i cv).1 (pb + pos)
          (sa.get (pb + i))) (pb + pos) (pb + i + 1)
          = sa.get (pb + i) :: readRange sa (pb + pos) (pb + i) := by
        rw [readRange_cons _ _ _ (by omega), setF_get_self]
        congr 1
        apply List.ext_getElem
        · rw [readRange_length, readRange_length]
          omega
        · intro n hn1 hn2
          have hn : n < pb + i + 1 - (pb + pos + 1) := by rwa [readRange_length] at hn1
          rw [← List.getD_eq_getElem _ 0 hn1, ← List.getD_eq_getElem _ 0 hn2,
            readRange_getD _ _ _ _ (by omega), readRange_getD _ _ _ _ (by omega)]
          rw [setF_get_other _ _ _ _ (by omega)]
          rw [show pb + pos + 1 + n = pb + (pos + n) + 1 from by omega]
          rw [h4 (pos + n) (by omega) (by omega)]
          congr 1
          omega
      rw [hhead]
      rw [show pb + i + 1 = (pb + i) + 1 from rfl,
        readRange_snoc sa (pb + pos) (pb + i) (by omega)]
      exact (List.perm_append_singleton _ _).symm
  exact permWithin_mono (by omega) (by omega) (by omega) hinner

/-- The bounded loop combinator preserves any reflexive transitive relation
that every executed step preserves. -/
lemma loopUpAux_preserves {α : Type} (P : α → α → Prop)
    (hrefl : ∀ a, P a a) (htrans : ∀ a b c, P a b → P b c → P a c)
    (f : Nat → α → α) :
    ∀ (k i : Nat) (a : α), (∀ m a2, i ≤ m → m < i + k → P a2 (f m a2)) →
      P a (loopUpAux f k i a) := by
  intro k
  induction k with
  | zero => intro i a h; exact hrefl a
  | succ n ih =>
    intro i a h
    exact htrans _ _ _ (h i a (Nat.le_refl i) (by omega))
      (ih (i + 1) (f i a) (fun m a2 hm1 hm2 => h m a2 (by omega) (by omega)))

/-- The in-place insertion sort permutes its partition range. -/
lemma mis_insert_permWithin (t : List Nat) (cml : Nat) (sa : Arr) (pb size : Nat) :
    permWithin pb (pb + size) sa (mis_insert t cml sa pb size).1 := by
  unfold mis_insert loopUp
  have := loopUpAux_preserves
    (fun p q : Arr × Arr => permWithin pb (pb + size) p.1 q.1)
    (fun a => permWithin_refl _ _ _)
    (fun a b c h1 h2 => permWithin_trans h1 h2)
    (fun k p =>
      let i := k + 1
      let currentIndex := p.1.get (pb + i)
      let currentValue := get_value t cml (p.1.get (pb + i))
      let s := mis_shift p.1 p.2 pb i currentValue
      (setF s.1 (pb + s.2.2) currentIndex, setF s.2.1 s.2.2 currentValue))
    (size - 1) 0
    (sa, setF zeroF 0 (get_value t cml (sa.get pb)))
    ?_
  · exact this
  · intro m a2 hm1 hm2
    exact mis_step_permWithin a2.1 a2.2 pb size (m + 1)
      (get_value t cml (a2.1.get (pb + (m + 1)))) (by omega) (by omega)

end Msufsort

namespace Msufsort

/-- Total number of slots covered by the entries of an insertion-sort
partition stack. -/
def stackSum (st : List PartitionInfo) : Nat :=
  (st.map PartitionInfo.size).sum

lemma stackSum_cons (x : PartitionInfo) (st : List PartitionInfo) :
    stackSum (x :: st) = x.size + stackSum st := by
  simp [stackSum]

/-- The run scan never goes below zero elements. -/
lemma mis_run_end_le (vals : Arr) (sv : Nat) : ∀ j, mis_run_end vals sv j ≤ j := by
  intro j
  induction j with
  | zero => exact Nat.le_refl _
  | succ n ih =>
    show (if vals.get n = sv then mis_run_end vals sv n else n + 1) ≤ n + 1
    by_cases h : vals.get n = sv
    · rw [if_pos h]; omega
    · rw [if_neg h]

/-- The splitting loop pushes entries totalling at most the remaining
element count. -/
lemma mis_split_sum (t : List Nat) (sa vals : Arr) (pb nml : Nat) :
    ∀ (fuel : Nat) (rem sp ep0 : Nat) (acc : List PartitionInfo),
      stackSum (mis_split t sa vals pb nml fuel rem sp ep0 acc) ≤ rem + stackSum acc := by
  intro fuel
  induction fuel with
  | zero => intro rem sp ep0 acc; exact Nat.le_add_left _ _
  | succ n ih =>
    intro rem sp ep0 acc
    cases rem with
    | zero => exact Nat.le_add_left _ _
    | succ i =>
      have hunfold : mis_split t sa vals pb nml (n + 1) (i + 1) sp ep0 acc
          = mis_split t sa vals pb nml n (mis_run_end vals (vals.get i) i)
            (if nml = 2 + suffix_value_size then get_value t 0 (sa.get pb) else sp) ep0
            (⟨nml, i + 1 - mis_run_end vals (vals.get i) i,
              if nml = 2 + suffix_value_size then get_value t 0 (sa.get pb) else sp,
              vals.get i,
              has_potential_tandem_repeats sp ep0 (vals.get i)⟩ :: acc) := by
        simp only [mis_split]
      rw [hunfold]
      have hle := ih (mis_run_end vals (vals.get i) i)
        (if nml = 2 + suffix_value_size then get_value t 0 (sa.get pb) else sp) ep0
        (⟨nml, i + 1 - mis_run_end vals (vals.get i) i,
          if nml = 2 + suffix_value_size then get_value t 0 (sa.get pb) else sp,
          vals.get i,
          has_potential_tandem_repeats sp ep0 (vals.get i)⟩ :: acc)
      rw [stackSum_cons] at hle
      have hre := mis_run_end_le vals (vals.get i) i
      dsimp only at hle
      omega

/-- The tandem repeat gate of the insertion sort permutes within the
partition range and returns a sub-partition of it. -/
lemma mis_tandem_gate_permWithin (sa : Arr) (pb size ml : Nat) (pot : Bool)
    (tr : List tandem_repeat_info) :
    permWithin pb (pb + size) sa (mis_tandem_gate sa pb size ml pot tr).1 ∧
    pb ≤ (mis_tandem_gate sa pb size ml pot tr).2.1 ∧
    (mis_tandem_gate sa pb size ml pot tr).2.1 + (mis_tandem_gate sa pb size ml pot tr).2.2.1
      ≤ pb + size := by
  unfold mis_tandem_gate
  by_cases hg : min_match_length_for_tandem_repeats ≤ ml ∧ pot = true
  · rw [if_pos hg]
    dsimp only
    obtain ⟨hperm, hcnt⟩ :=
      partition_tandem_repeats_permWithin sa pb (pb + size) ml tr
    refine ⟨hperm, by omega, ?_⟩
    have : pb + size - pb = size := by omega
    rw [this] at hcnt
    omega
  · rw [if_neg hg]
    exact ⟨permWithin_refl _ _ _, Nat.le_refl _, Nat.le_refl _⟩

/-- The main loop of multikey_insertion_sort permutes within [b, e) whenever
the pending stack entries fit between the partition cursor and e. -/
lemma mis_loop_permWithin (t : List Nat) (b e : Nat) :
    ∀ (fuel : Nat) (sa : Arr) (pb ep1 : Nat) (stack : List PartitionInfo)
      (tr : List tandem_repeat_info),
      b ≤ pb → pb + stackSum stack ≤ e →
      permWithin b e sa (mis_loop t fuel sa pb ep1 stack tr).1 := by
  intro fuel
  induction fuel with
  | zero => intro sa pb ep1 stack tr hb he; exact permWithin_refl _ _ _
  | succ n ih =>
    intro sa pb ep1 stack tr hb he
    cases stack with
    | nil => exact permWithin_refl _ _ _
    | cons top rest =>
      rw [stackSum_cons] at he
      by_cases hsz : top.size ≤ 2
      · have hunfold : mis_loop t (n + 1) sa pb ep1 (top :: rest) tr
            = mis_loop t n
              (if top.size = 2 ∧
                  compare_suffixes t top.currentMatchLength (sa.get pb) (sa.get (pb + 1))
                then swapF sa pb (pb + 1) else sa)
              (pb + top.size) ep1 rest tr := by
          simp only [mis_loop]
          rw [if_pos hsz]
        rw [hunfold]
        by_cases hsw : top.size = 2 ∧
            compare_suffixes t top.currentMatchLength (sa.get pb) (sa.get (pb + 1)) = true
        · rw [if_pos hsw]
          refine permWithin_trans
            (swapF_permWithin sa b e pb (pb + 1) hb (by omega) (by omega) (by omega)) ?_
          exact ih _ (pb + top.size) ep1 rest tr (by omega) (by omega)
        · rw [if_neg hsw]
          exact ih _ (pb + top.size) ep1 rest tr (by omega) (by omega)
      · have hunfold : mis_loop t (n + 1) sa pb ep1 (top :: rest) tr
            = (let g := mis_tandem_gate sa pb top.size top.currentMatchLength
                top.hasPotentialTandemRepeats tr
              if g.2.2.1 = 0 then mis_loop t n g.1 g.2.1 ep1 rest g.2.2.2
              else
                let m := mis_insert t top.currentMatchLength g.1 g.2.1 g.2.2.1
                mis_loop t n m.1 g.2.1 ep1
                  (mis_split t m.1 m.2 g.2.1 (top.currentMatchLength + suffix_value_size)
                    (g.2.2.1 + 1) g.2.2.1 top.startingPattern top.endingPattern rest)
                  g.2.2.2) := by
          simp only [mis_loop]
          rw [if_neg hsz]
        rw [hunfold]
        dsimp only
        obtain ⟨hgp, hgb, hge⟩ := mis_tandem_gate_permWithin sa pb top.size
          top.currentMatchLength top.hasPotentialTandemRepeats tr
        set G := mis_tandem_gate sa pb top.size top.currentMatchLength
          top.hasPotentialTandemRepeats tr with hG
        have hgperm : permWithin b e sa G.1 :=
          permWithin_mono hb (by omega) (by omega) hgp
        by_cases h0 : G.2.2.1 = 0
        · rw [if_pos h0]
          exact permWithin_trans hgperm
            (ih G.1 G.2.1 ep1 rest G.2.2.2 (by omega) (by omega))
        · rw [if_neg h0]
          set M := mis_insert t top.currentMatchLength G.1 G.2.1 G.2.2.1 with hM
          have hmp : permWithin b e G.1 M.1 := by
            refine permWithin_mono (by omega) (Nat.le_add_right G.2.1 G.2.2.1) (by omega) ?_
            exact hM.symm ▸
              mis_insert_permWithin t top.currentMatchLength G.1 G.2.1 G.2.2.1
          have hsplit := mis_split_sum t M.1 M.2 G.2.1
            (top.currentMatchLength + suffix_value_size) (G.2.2.1 + 1) G.2.2.1
            top.startingPattern top.endingPattern rest
          refine permWithin_trans hgperm (permWithin_trans hmp ?_)
          exact ih M.1 G.2.1 ep1 _ G.2.2.2 (by omega) (by omega)
  
/-- multikey_insertion_sort permutes within its partition range [pb, pe). -/
lemma multikey_insertion_sort_permWithin (t : List Nat) (fuel : Nat) (sa : Arr)
    (pb pe cml sp ep0 ep1 : Nat) (tr : List tandem_repeat_info) :
    permWithin pb pe sa
      (multikey_insertion_sort t fuel sa pb pe cml sp ep0 ep1 tr).1 := by
  unfold multikey_insertion_sort
  by_cases h : pe - pb < 2
  · rw [if_pos h]
    exact permWithin_refl _ _ _
  · rw [if_neg h]
    refine mis_loop_permWithin t pb pe fuel sa pb ep1 _ tr (Nat.le_refl _) ?_
    rw [stackSum_cons]
    show pb + (pe - pb + stackSum []) ≤ pe
    have : stackSum [] = 0 := rfl
    omega

end Msufsort

namespace Msufsort

/-- A conditional pivot exchange permutes within any range containing both
slots. -/
lemma pivot_step_permWithin (sa : Arr) (B E pi0 pj0 vi vj : Nat)
    (h1 : B ≤ pi0) (h2 : pi0 < E) (h3 : B ≤ pj0) (h4 : pj0 < E) :
    permWithin B E sa (pivot_step sa pi0 pj0 vi vj).1 := by
  unfold pivot_step
  by_cases h : vi > vj
  · rw [if_pos h]
    exact swapF_permWithin sa B E pi0 pj0 h1 h2 h3 h4
  · rw [if_neg h]
    exact permWithin_refl _ _ _

/-- Invariant of the seven-way partitioning sweep: all region pointers stay
ordered inside [B, E), the number of pending slots ties the scan pointer to
endPivot2, and the sweep only permutes within [B, E). -/
lemma mqs_partition_loop_inv (t : List Nat) (off : Int) (p1 p2 p3 : Nat) (B E : Nat) :
    ∀ (gap : Nat) (st : MqsPartState),
      B ≤ st.bp1 → st.bp1 ≤ st.ep1 → st.ep1 ≤ st.bp2 → st.bp2 ≤ st.cur →
      1 ≤ st.cur → st.cur + gap = st.ep2 + 1 →
      st.ep2 ≤ st.bp3 → st.bp3 ≤ st.ep3 → st.ep3 < E →
      (permWithin B E st.sa (mqs_partition_loop t off p1 p2 p3 gap st).sa ∧
       B ≤ (mqs_partition_loop t off p1 p2 p3 gap st).bp1 ∧
       (mqs_partition_loop t off p1 p2 p3 gap st).bp1
         ≤ (mqs_partition_loop t off p1 p2 p3 gap st).ep1 ∧
       (mqs_partition_loop t off p1 p2 p3 gap st).ep1
         ≤ (mqs_partition_loop t off p1 p2 p3 gap st).bp2 ∧
       (mqs_partition_loop t off p1 p2 p3 gap st).bp2
         ≤ (mqs_partition_loop t off p1 p2 p3 gap st).ep2 + 1 ∧
       (mqs_partition_loop t off p1 p2 p3 gap st).ep2
         ≤ (mqs_partition_loop t off p1 p2 p3 gap st).bp3 ∧
       (mqs_partition_loop t off p1 p2 p3 gap st).bp3
         ≤ (mqs_partition_loop t off p1 p2 p3 gap st).ep3 ∧
       (mqs_partition_loop t off p1 p2 p3 gap st).ep3 < E) := by
  intro gap
  induction gap with
  | zero =>
    intro st hb1 h12 h2b hbc hc1 hgap h23 h3e he
    refine ⟨permWithin_refl _ _ _, hb1, h12, h2b, ?_, h23, h3e, he⟩
    show st.bp2 ≤ st.ep2 + 1
    omega
  | succ gap ih =>
    intro st hb1 h12 h2b hbc hc1 hgap h23 h3e he
    obtain ⟨sa, cur, bp1, ep1, bp2, ep2, bp3, ep3, cv, nv, ndv⟩ := st
    dsimp only at hb1 h12 h2b hbc hc1 hgap h23 h3e he
    have hcur2 : cur ≤ ep2 := by omega
    have hcurE : cur < E := by omega
    have hbp2E : bp2 < E := by omega
    have hbp1E : bp1 < E := by omega
    have hep1E : ep1 < E := by omega
    have hep2E : ep2 < E := by omega
    have hbp3E : bp3 < E := by omega
    have hBep2 : B ≤ ep2 := by omega
    have hBbp3 : B ≤ bp3 := by omega
    have hBep3 : B ≤ ep3 := by omega
    simp only [mqs_partition_loop]
    by_cases hcv : cv ≤ p2
    · rw [if_pos hcv]
      by_cases hlt : cv < p2
      · rw [if_pos hlt]
        by_cases hle1 : cv ≤ p1
        · rw [if_pos hle1]
          by_cases hlt1 : cv < p1
          · rw [if_pos hlt1]
            dsimp only
            have hsw : permWithin B E sa
                (swapF (swapF (swapF sa bp2 cur) bp1 bp2) ep1 bp2) := by
              refine permWithin_trans
                (swapF_permWithin sa B E bp2 cur (by omega) hbp2E (by omega) hcurE) ?_
              refine permWithin_trans
                (swapF_permWithin _ B E bp1 bp2 hb1 hbp1E (by omega) hbp2E) ?_
              exact swapF_permWithin _ B E ep1 bp2 (by omega) hep1E (by omega) hbp2E
            obtain ⟨c1, c2, c3, c4, c5, c6, c7, c8⟩ := ih
              ⟨swapF (swapF (swapF sa bp2 cur) bp1 bp2) ep1 bp2, cur + 1,
                bp1 + 1, ep1 + 1, bp2 + 1, ep2, bp3, ep3, nv,
                get_value t off (sa.get (cur + 2)), ndv⟩
              (by dsimp only; omega) (by dsimp only; omega) (by dsimp only; omega)
              (by dsimp only; omega) (by dsimp only; omega) (by dsimp only; omega)
              (by dsimp only; omega) (by dsimp only; omega) (by dsimp only; omega)
            exact ⟨permWithin_trans hsw c1, c2, c3, c4, c5, c6, c7, c8⟩
          · rw [if_neg hlt1]
            dsimp only
            have hsw : permWithin B E sa (swapF (swapF sa bp2 cur) ep1 bp2) := by
              refine permWithin_trans
                (swapF_permWithin sa B E bp2 cur (by omega) hbp2E (by omega) hcurE) ?_
              exact swapF_permWithin _ B E ep1 bp2 (by omega) hep1E (by omega) hbp2E
            obtain ⟨c1, c2, c3, c4, c5, c6, c7, c8⟩ := ih
              ⟨swapF (swapF sa bp2 cur) ep1 bp2, cur + 1,
                bp1, ep1 + 1, bp2 + 1, ep2, bp3, ep3, nv,
                get_value t off (sa.get (cur + 2)), ndv⟩
              (by dsimp only; omega) (by dsimp only; omega) (by dsimp only; omega)
              (by dsimp only; omega) (by dsimp only; omega) (by dsimp only; omega)
              (by dsimp only; omega) (by dsimp only; omega) (by dsimp only; omega)
            exact ⟨permWithin_trans hsw c1, c2, c3, c4, c5, c6, c7, c8⟩
        · rw [if_neg hle1]
          dsimp only
          have hsw : permWithin B E sa (swapF sa bp2 cur) :=
            swapF_permWithin sa B E bp2 cur (by omega) hbp2E (by omega) hcurE
          obtain ⟨c1, c2, c3, c4, c5, c6, c7, c8⟩ := ih
            ⟨swapF sa bp2 cur, cur + 1, bp1, ep1, bp2 + 1, ep2, bp3, ep3, nv,
              get_value t off (sa.get (cur + 2)), ndv⟩
            (by dsimp only; omega) (by dsimp only; omega) (by dsimp only; omega)
            (by dsimp only; omega) (by dsimp only; omega) (by dsimp only; omega)
            (by dsimp only; omega) (by dsimp only; omega) (by dsimp only; omega)
          exact ⟨permWithin_trans hsw c1, c2, c3, c4, c5, c6, c7, c8⟩
      · rw [if_neg hlt]
        dsimp only
        obtain ⟨c1, c2, c3, c4, c5, c6, c7, c8⟩ := ih
          ⟨sa, cur + 1, bp1, ep1, bp2, ep2, bp3, ep3, nv,
            get_value t off (sa.get (cur + 2)), ndv⟩
          (by dsimp only; omega) (by dsimp only; omega) (by dsimp only; omega)
          (by dsimp only; omega) (by dsimp only; omega) (by dsimp only; omega)
          (by dsimp only; omega) (by dsimp only; omega) (by dsimp only; omega)
        exact ⟨c1, c2, c3, c4, c5, c6, c7, c8⟩
    · rw [if_neg hcv]
      by_cases hge3 : cv ≥ p3
      · rw [if_pos hge3]
        by_cases hgt3 : cv > p3
        · rw [if_pos hgt3]
          dsimp only
          have hsw : permWithin B E sa
              (swapF (swapF (swapF sa ep2 cur) ep2 ep3) ep2 bp3) := by
            refine permWithin_trans
              (swapF_permWithin sa B E ep2 cur hBep2 hep2E (by omega) hcurE) ?_
            refine permWithin_trans
              (swapF_permWithin _ B E ep2 ep3 hBep2 hep2E hBep3 he) ?_
            exact swapF_permWithin _ B E ep2 bp3 hBep2 hep2E hBbp3 hbp3E
          obtain ⟨c1, c2, c3, c4, c5, c6, c7, c8⟩ := ih
            ⟨swapF (swapF (swapF sa ep2 cur) ep2 ep3) ep2 bp3, cur,
              bp1, ep1, bp2, ep2 - 1, bp3 - 1, ep3 - 1, ndv, nv,
              get_value t off (sa.get (ep2 - 1))⟩
            (by dsimp only; omega) (by dsimp only; omega) (by dsimp only; omega)
            (by dsimp only; omega) (by dsimp only; omega) (by dsimp only; omega)
            (by dsimp only; omega) (by dsimp only; omega) (by dsimp only; omega)
          exact ⟨permWithin_trans hsw c1, c2, c3, c4, c5, c6, c7, c8⟩
        · rw [if_neg hgt3]
          dsimp only
          have hsw : permWithin B E sa (swapF (swapF sa ep2 cur) ep2 bp3) := by
            refine permWithin_trans
              (swapF_permWithin sa B E ep2 cur hBep2 hep2E (by omega) hcurE) ?_
            exact swapF_permWithin _ B E ep2 bp3 hBep2 hep2E hBbp3 hbp3E
          obtain ⟨c1, c2, c3, c4, c5, c6, c7, c8⟩ := ih
            ⟨swapF (swapF sa ep2 cur) ep2 bp3, cur,
              bp1, ep1, bp2, ep2 - 1, bp3 - 1, ep3, ndv, nv,
              get_value t off (sa.get (ep2 - 1))⟩
            (by dsimp only; omega) (by dsimp only; omega) (by dsimp only; omega)
            (by dsimp only; omega) (by dsimp only; omega) (by dsimp only; omega)
            (by dsimp only; omega) (by dsimp only; omega) (by dsimp only; omega)
          exact ⟨permWithin_trans hsw c1, c2, c3, c4, c5, c6, c7, c8⟩
      · rw [if_neg hge3]
        dsimp only
        have hsw : permWithin B E sa (swapF sa ep2 cur) :=
          swapF_permWithin sa B E ep2 cur hBep2 hep2E (by omega) hcurE
        obtain ⟨c1, c2, c3, c4, c5, c6, c7, c8⟩ := ih
          ⟨swapF sa ep2 cur, cur, bp1, ep1, bp2, ep2 - 1, bp3, ep3, ndv, nv,
            get_value t off (sa.get (ep2 - 1))⟩
          (by dsimp only; omega) (by dsimp only; omega) (by dsimp only; omega)
          (by dsimp only; omega) (by dsimp only; omega) (by dsimp only; omega)
          (by dsimp only; omega) (by dsimp only; omega) (by dsimp only; omega)
        exact ⟨permWithin_trans hsw c1, c2, c3, c4, c5, c6, c7, c8⟩

end Msufsort

namespace Msufsort

/-- The tandem repeat gate of multikey_quicksort permutes within [b, e) and
advances the partition front without leaving the range. -/
lemma mqs_tandem_gate_permWithin (t : List Nat) (sa : Arr) (b e ml sp ep0 ep1 : Nat)
    (tr : List tandem_repeat_info) (hbe : b ≤ e) :
    permWithin b e sa (mqs_tandem_gate t sa b e ml sp ep0 ep1 tr).1 ∧
    b ≤ (mqs_tandem_gate t sa b e ml sp ep0 ep1 tr).2.1 ∧
    (mqs_tandem_gate t sa b e ml sp ep0 ep1 tr).2.1 ≤ e := by
  unfold mqs_tandem_gate
  by_cases h1 : min_match_length_for_tandem_repeats ≤ ml
  · rw [if_pos h1]
    dsimp only
    by_cases h2 : 1 < e - b ∧ has_potential_tandem_repeats
        (if ml = min_match_length_for_tandem_repeats then get_value t 0 (sa.get b) else sp)
        ep0 ep1 = true
    · rw [if_pos h2]
      dsimp only
      obtain ⟨hp, hc⟩ := partition_tandem_repeats_permWithin sa b e ml tr
      exact ⟨hp, Nat.le_add_right _ _, by omega⟩
    · rw [if_neg h2]
      exact ⟨permWithin_refl _ _ _, Nat.le_refl _, hbe⟩
  · rw [if_neg h1]
    exact ⟨permWithin_refl _ _ _, Nat.le_refl _, hbe⟩

/-- The magic-constant sixth used for pivot selection: five sixths of the
partition stay strictly inside it. -/
lemma five_oneSixth_lt (n : Nat) (hn : 1 ≤ n) :
    5 * ((n * 2863311531) >>> 34) < n := by
  rw [Nat.shiftRight_eq_div_pow]
  have h1 : 5 * (n * 2863311531 / 2 ^ 34) ≤ 5 * (n * 2863311531) / 2 ^ 34 :=
    Nat.mul_div_le_mul_div_assoc _ _ _
  have h2 : 5 * (n * 2863311531) / 2 ^ 34 < n := by
    apply Nat.div_lt_of_lt_mul
    calc 5 * (n * 2863311531) = n * 14316557655 := by ring
    _ < 2 ^ 34 * n := by
        rw [Nat.mul_comm (2 ^ 34) n]
        exact mul_lt_mul_of_pos_left (by norm_num) (by omega)
  omega

end Msufsort

namespace Msufsort

set_option maxHeartbeats 1000000 in
/-- Claim C10: every call of multikey_quicksort (including its insertion
sort base case and the tandem repeat partitioning it may invoke) writes only
to suffix array slots inside its argument range [b, e), and permutes the
values stored in that range: slots outside the range are returned unchanged
and the range contents of the result are a permutation of the range contents
of the input, each entry keeping its index bits and flag bit exactly. -/
theorem c10_multikey_quicksort_permutes (t : List Nat) :
    ∀ (fuel : Nat) (sa : Arr) (b e matchLen sp ep0 ep1 : Nat)
      (tr : List tandem_repeat_info),
      permWithin b e sa (multikey_quicksort t fuel sa b e matchLen sp ep0 ep1 tr).1 := by
  intro fuel
  induction fuel with
  | zero =>
    intro sa b e matchLen sp ep0 ep1 tr
    exact permWithin_refl _ _ _
  | succ fuel ih =>
    intro sa b e matchLen sp ep0 ep1 tr
    have hone : ∀ (sa0 : Arr) (lo hi m s0 q0 q1 : Nat) (tr0 : List tandem_repeat_info),
        b ≤ lo → lo ≤ hi → hi ≤ e →
        permWithin b e sa0 (multikey_quicksort t fuel sa0 lo hi m s0 q0 q1 tr0).1 :=
      fun sa0 lo hi m s0 q0 q1 tr0 h1 h2 h3 =>
        permWithin_mono h1 h2 h3 (ih sa0 lo hi m s0 q0 q1 tr0)
    rw [multikey_quicksort]
    by_cases hsmall : e - b < 2
    · rw [if_pos hsmall]
      exact permWithin_refl _ _ _
    · rw [if_neg hsmall]
      have hbe : b ≤ e := by omega
      lift_lets
      extract_lets g sa0 b0 sp0 tr0 size oneSixth pc1 pc2 pc3 pc4 pc5 v1 v2 v3 v4 v5
        s1 s2 s3 s4 s5 s6 s7 s8 s9 p1 p2 p3 saA d12 saB e0 q saC ep2i bp3i st0 fin
        r1 r2 r3 r4 r5 r6
      obtain ⟨hgp0, hgb0, hge0⟩ :=
        mqs_tandem_gate_permWithin t sa b e matchLen sp ep0 ep1 tr hbe
      have hgs : permWithin b e sa sa0 := hgp0
      have hb0 : b ≤ b0 := hgb0
      have hb0e : b0 ≤ e := hge0
      by_cases hins : e - b0 < insertion_sort_threshold
      · rw [if_pos hins]
        refine permWithin_trans hgs ?_
        exact permWithin_mono hb0 hb0e (Nat.le_refl e)
          (multikey_insertion_sort_permWithin t _ sa0 b0 e matchLen sp0 ep0 ep1 tr0)
      · rw [if_neg hins]
        have hthr : insertion_sort_threshold = 16 := rfl
        rw [hthr] at hins
        have h16 : b0 + 16 ≤ e := by omega
        have hsize : size = e - b0 := rfl
        have hos : oneSixth = (size * 2863311531) >>> 34 := rfl
        have h5 : 5 * oneSixth < size := by
          rw [hos]
          exact five_oneSixth_lt size (by omega)
        have hpc1 : pc1 = b0 + oneSixth := rfl
        have hpc2 : pc2 = pc1 + oneSixth := rfl
        have hpc3 : pc3 = pc2 + oneSixth := rfl
        have hpc4 : pc4 = pc3 + oneSixth := rfl
        have hpc5 : pc5 = pc4 + oneSixth := rfl
        have he0 : e0 = e - 1 := rfl
        have hd12v : d12 = if p1 ≠ p2 then 1 else 0 := rfl
        have hD1 : d12 ≤ 1 := by
          rw [hd12v]
          split <;> omega
        have hqv : q = if p2 ≠ p3 then (swapF saB e0 pc5, e0 - 1, e0 - 1)
            else (saB, e0, e0) := rfl
        have hsaCv : saC = q.1 := rfl
        have hep2iv : ep2i = q.2.1 := rfl
        have hbp3iv : bp3i = q.2.2 := rfl
        have hp1c : permWithin b e sa0 s1.1 :=
          pivot_step_permWithin sa0 b e pc1 pc2 v1 v2 (by omega) (by omega)
            (by omega) (by omega)
        have hp2c : permWithin b e s1.1 s2.1 :=
          pivot_step_permWithin s1.1 b e pc4 pc5 v4 v5 (by omega) (by omega)
            (by omega) (by omega)
        have hp3c : permWithin b e s2.1 s3.1 :=
          pivot_step_permWithin s2.1 b e pc1 pc3 s1.2.1 v3 (by omega) (by omega)
            (by omega) (by omega)
        have hp4c : permWithin b e s3.1 s4.1 :=
          pivot_step_permWithin s3.1 b e pc2 pc3 s1.2.2 s3.2.2 (by omega) (by omega)
            (by omega) (by omega)
        have hp5c : permWithin b e s4.1 s5.1 :=
          pivot_step_permWithin s4.1 b e pc1 pc4 s3.2.1 s2.2.1 (by omega) (by omega)
            (by omega) (by omega)
        have hp6c : permWithin b e s5.1 s6.1 :=
          pivot_step_permWithin s5.1 b e pc3 pc4 s4.2.2 s5.2.2 (by omega) (by omega)
            (by omega) (by omega)
        have hp7c : permWithin b e s6.1 s7.1 :=
          pivot_step_permWithin s6.1 b e pc2 pc5 s4.2.1 s2.2.2 (by omega) (by omega)
            (by omega) (by omega)
        have hp8c : permWithin b e s7.1 s8.1 :=
          pivot_step_permWithin s7.1 b e pc2 pc3 s7.2.1 s6.2.1 (by omega) (by omega)
            (by omega) (by omega)
        have hp9c : permWithin b e s8.1 s9.1 :=
          pivot_step_permWithin s8.1 b e pc4 pc5 s6.2.2 s7.2.2 (by omega) (by omega)
            (by omega) (by omega)
        have hAc : permWithin b e s9.1 saA :=
          swapF_permWithin s9.1 b e b0 pc1 (by omega) (by omega) (by omega) (by omega)
        have hBc : permWithin b e saA saB :=
          swapF_permWithin saA b e (b0 + 1) pc3 (by omega) (by omega) (by omega) (by omega)
        have hCc : permWithin b e saB saC := by
          rw [hsaCv, hqv]
          split
          · exact swapF_permWithin saB b e e0 pc5 (by omega) (by omega) (by omega) (by omega)
          · exact permWithin_refl _ _ _
        have hQb : e0 - 1 ≤ ep2i ∧ ep2i ≤ e0 ∧ ep2i = bp3i := by
          rw [hep2iv, hbp3iv, hqv]
          split <;> dsimp only <;> omega
        have hf1 : st0.sa = saC := rfl
        have hf2 : st0.cur = b0 + 2 := rfl
        have hf3 : st0.bp1 = b0 := rfl
        have hf4 : st0.ep1 = b0 + d12 := rfl
        have hf5 : st0.bp2 = b0 + d12 := rfl
        have hf6 : st0.ep2 = ep2i := rfl
        have hf7 : st0.bp3 = bp3i := rfl
        have hf8 : st0.ep3 = e0 := rfl
        have hfin : fin = mqs_partition_loop t (matchLen : Int) p1 p2 p3
            (ep2i + 1 - (b0 + 2)) st0 := rfl
        obtain ⟨L1, L2, L3, L4, L5, L6, L7, L8⟩ := mqs_partition_loop_inv t
          (matchLen : Int) p1 p2 p3 b0 e (ep2i + 1 - (b0 + 2)) st0
          (by omega) (by omega) (by omega) (by omega) (by omega) (by omega)
          (by omega) (by omega) (by omega)
        rw [← hfin] at L1 L2 L3 L4 L5 L6 L7 L8
        rw [hf1] at L1
        have hLc : permWithin b e saC fin.sa :=
          permWithin_mono hb0 hb0e (Nat.le_refl e) L1
        have hr1 : permWithin b e fin.sa r1.1 :=
          hone fin.sa b0 fin.bp1 matchLen sp0 ep0 ep1 tr0 (by omega) (by omega) (by omega)
        have hr2 : permWithin b e r1.1 r2.1 :=
          hone r1.1 fin.bp1 fin.ep1 (matchLen + suffix_value_size) sp0 ep1 p1 r1.2
            (by omega) (by omega) (by omega)
        have hr3 : permWithin b e r2.1 r3.1 :=
          hone r2.1 fin.ep1 fin.bp2 matchLen sp0 ep0 ep1 r2.2
            (by omega) (by omega) (by omega)
        have hr4 : permWithin b e r3.1 r4.1 :=
          hone r3.1 fin.bp2 (fin.ep2 + 1) (matchLen + suffix_value_size) sp0 ep1 p2 r3.2
            (by omega) (by omega) (by omega)
        have hr5 : permWithin b e r4.1 r5.1 :=
          hone r4.1 (fin.ep2 + 1) (fin.bp3 + 1) matchLen sp0 ep0 ep1 r4.2
            (by omega) (by omega) (by omega)
        have hr6 : permWithin b e r5.1 r6.1 :=
          hone r5.1 (fin.bp3 + 1) (fin.ep3 + 1) (matchLen + suffix_value_size) sp0 ep1 p3 r5.2
            (by omega) (by omega) (by omega)
        have hr7 : permWithin b e r6.1
            (multikey_quicksort t fuel r6.1 (fin.ep3 + 1) e matchLen sp0 ep0 ep1 r6.2).1 :=
          hone r6.1 (fin.ep3 + 1) e matchLen sp0 ep0 ep1 r6.2
            (by omega) (by omega) (by omega)
        exact permWithin_trans hgs (permWithin_trans hp1c (permWithin_trans hp2c
          (permWithin_trans hp3c (permWithin_trans hp4c (permWithin_trans hp5c
          (permWithin_trans hp6c (permWithin_trans hp7c (permWithin_trans hp8c
          (permWithin_trans hp9c (permWithin_trans hAc (permWithin_trans hBc
          (permWithin_trans hCc (permWithin_trans hLc (permWithin_trans hr1
          (permWithin_trans hr2 (permWithin_trans hr3 (permWithin_trans hr4
          (permWithin_trans hr5 (permWithin_trans hr6 hr7)))))))))))))))))))

end Msufsort
